import Mathlib

/-!
Verification of the TIC (Télé-Information Client) streaming decoder.

The development shallowly embeds the three pipeline stages of the decoder:

* `Unframer.pushBytes` — the on-the-fly frame extractor (the committed header
  `include/TIC/Unframer.h` defines `__TIC_UNFRAMER_FORWARD_FRAME_BYTES_ON_THE_FLY__`,
  so the compiled variant forwards payload bytes as they arrive and keeps no
  internal frame buffer).  The C++ function recursively re-invokes itself on the
  suffix of its chunk; we mirror that recursion with an explicit fuel argument
  and prove the default fuel sufficient.
* `DatasetExtractor.pushBytes` — the dataset extractor with its 128-byte
  accumulation buffer.
* `DatasetView` — the pure dataset parser (checksum, label/horodate/data split,
  horodate parsing, decimal conversion).

Bytes are modelled as `Nat` (the C++ code reads `uint8_t` values and only
compares them for equality or accumulates them modulo 256, which we make
explicit where it matters).
-/

/-- STX frame start marker (`TIC::Unframer::START_MARKER`). -/
def STX : Nat := 0x02

/-- ETX frame end marker (`TIC::Unframer::END_MARKER`). -/
def ETX : Nat := 0x03

/-- LF, dataset start marker (`TIC::DatasetExtractor::START_MARKER`). -/
def LF : Nat := 0x0A

/-- CR, dataset end marker (`TIC::DatasetExtractor::END_MARKER_TIC_1`). -/
def CR : Nat := 0x0D

/-- Space separator of the historical dialect (`TIC::DatasetView::_SP`). -/
def SP : Nat := 0x20

/-- Horizontal tab separator of the standard dialect (`TIC::DatasetView::_HT`). -/
def HT : Nat := 0x09

/-- Max dataset payload size (`TIC::DatasetExtractor::MAX_DATASET_SIZE`). -/
def MAX_DATASET_SIZE : Nat := 128

/-- `memchr(buf, c, len)`: index of the first occurrence of byte `c`, if any. -/
def memchr (c : Nat) : List Nat → Option Nat
  | [] => none
  | b :: rest => if b = c then some 0 else (memchr c rest).map (· + 1)

/-- Emissions of the Unframer: `onNewFrameBytes` payload chunks and
`onFrameComplete` signals, in invocation order. -/
inductive UEmit where
  | newFrameBytes (payload : List Nat)
  | frameComplete
deriving DecidableEq, Repr

/-- `TIC::Unframer::processIncomingFrameBytes` in on-the-fly mode: forward the
payload chunk to `onNewFrameBytes` when it is non-empty (the callback guard
`len > 0`); the return value (number of bytes used) is the chunk length. -/
def processIncomingFrameBytes (payload : List Nat) : List UEmit :=
  if payload.length > 0 then [UEmit.newFrameBytes payload] else []

/-- Body of `TIC::Unframer::pushBytes` (on-the-fly mode), with the C++
self-recursive call abstracted as `recurse`.  Mirrors `src/src/TIC/Unframer.cpp`
lines 24-81: when out of sync, skip up to and including the first STX and
recurse; when in sync, cut the frame at the first ETX (or, failing that, at the
first STX, which terminates the frame without being consumed) and recurse on
the remainder. -/
def unframerPushBody (recurse : Bool → List Nat → Bool × List UEmit × Nat)
    (sync : Bool) (buf : List Nat) : Bool × List UEmit × Nat :=
  if buf.length = 0 then (sync, [], 0)
  else if sync = false then
    match memchr STX buf with
    | some k =>
      let r := recurse true (buf.drop (k + 1))
      (r.1, r.2.1, (k + 1) + r.2.2)
    | none => (false, [], buf.length)
  else
    match memchr ETX buf with
    | some e =>
      let r := recurse false (buf.drop (e + 1))
      (r.1, processIncomingFrameBytes (buf.take e) ++ UEmit.frameComplete :: r.2.1,
       (e + 1) + r.2.2)
    | none =>
      match memchr STX buf with
      | some s =>
        let r := recurse false (buf.drop s)
        (r.1, processIncomingFrameBytes (buf.take s) ++ UEmit.frameComplete :: r.2.1,
         s + r.2.2)
      | none => (true, processIncomingFrameBytes buf, buf.length)

/-- `TIC::Unframer::pushBytes`, fueled.  State is the `sync` flag alone
(on-the-fly mode has no frame buffer).  Returns the final `sync` flag, the
emissions in order, and the number of used bytes (the C++ return value).
The fuel only serves to express the C++ self-recursion on chunk suffixes;
`unframerPush_fuel_congr` shows any fuel at least `2*len + 2` gives the same
result. -/
def unframerPush (fuel : Nat) (sync : Bool) (buf : List Nat) :
    Bool × List UEmit × Nat :=
  match fuel with
  | 0 => (sync, [], 0)
  | fuel + 1 => unframerPushBody (unframerPush fuel) sync buf

/-- `TIC::Unframer::pushBytes` with sufficient fuel. -/
def Unframer.pushBytes (sync : Bool) (buf : List Nat) : Bool × List UEmit × Nat :=
  unframerPush (2 * buf.length + 2) sync buf

/-- The fuel measure under which `unframerPush` is fuel-independent. -/
def unframerMeasure (sync : Bool) (buf : List Nat) : Nat :=
  2 * buf.length + (if sync then 2 else 1)

/-- Flattened emission events: individual payload bytes and frame completions.
This is the logical boundary at which on-the-fly emissions are compared. -/
inductive UEv where
  | byte (b : Nat)
  | complete
deriving DecidableEq, Repr

/-- Flatten `onNewFrameBytes` chunks into per-byte events. -/
def flattenU : List UEmit → List UEv
  | [] => []
  | UEmit.newFrameBytes p :: r => p.map UEv.byte ++ flattenU r
  | UEmit.frameComplete :: r => UEv.complete :: flattenU r

/-- The per-byte state machine of the spec (section 4.1 table): discard until
STX, forward payload bytes, complete on ETX, restart on mid-frame STX. -/
def stepU (sync : Bool) (b : Nat) : Bool × List UEv :=
  if sync = false then (decide (b = STX), [])
  else if b = ETX then (false, [UEv.complete])
  else if b = STX then (true, [UEv.complete])
  else (true, [UEv.byte b])

/-- Run the per-byte machine over a byte list. -/
def runU (sync : Bool) : List Nat → Bool × List UEv
  | [] => (sync, [])
  | b :: r =>
    let s := stepU sync b
    let t := runU s.1 r
    (t.1, s.2 ++ t.2)

/-- `cleanU sync buf` holds when running the per-byte machine from `sync`
never encounters an STX byte while in-frame (no mid-frame restart). -/
def cleanU (sync : Bool) : List Nat → Bool
  | [] => true
  | b :: r =>
    if sync = false then cleanU (decide (b = STX)) r
    else if b = STX then false
    else cleanU (decide (¬ b = ETX)) r

/-- A sequence of `TIC::Unframer::pushBytes` calls, one per chunk, threading
the sync state and concatenating the emissions. -/
def Unframer.pushChunks (sync : Bool) : List (List Nat) → Bool × List UEmit
  | [] => (sync, [])
  | c :: cs =>
    let r := Unframer.pushBytes sync c
    let t := Unframer.pushChunks r.1 cs
    (t.1, r.2.1 ++ t.2)

/-- `END_MARKER_TIC_1` as used by `TIC::DatasetExtractor::pushBytes`.  The
header defining it is not in the tree. Modelled from the spec: the constants
table gives `Dataset end (CR)` = 0x0D (standard TIC end-of-dataset marker). -/
def END_MARKER_TIC_1 : Nat := 0x0D

/-- `END_MARKER_TIC_2` as used by `TIC::DatasetExtractor::pushBytes`.  The
header defining it is not in the tree. Modelled from the spec: the constants
table gives `Dataset end (historical alt)` = 0x0A, i.e. LF itself also closes
an in-progress dataset. -/
def END_MARKER_TIC_2 : Nat := 0x0A

/-- `TIC::DatasetExtractor::processIncomingDatasetBytes`: append the chunk to
the current dataset buffer, truncating at the 128-byte capacity
(`getFreeBytes`), and emit the buffered dataset through `onDatasetExtracted`
when `datasetComplete`.  Returns the new buffer, the emissions and the number
of copied bytes (the C++ return value). -/
def processIncomingDatasetBytes (cur : List Nat) (chunk : List Nat)
    (datasetComplete : Bool) : List Nat × List (List Nat) × Nat :=
  let szCopy := min chunk.length (MAX_DATASET_SIZE - cur.length)
  let cur2 := cur ++ chunk.take szCopy
  (cur2, if datasetComplete then [cur2] else [], szCopy)

/-- Body of `TIC::DatasetExtractor::pushBytes` with the self-recursive call
abstracted as `recurse`.  Mirrors `src/src/TIC/DatasetExtractor.cpp` lines
12-78: out of sync, skip up to and including the first LF; in sync, probe for
the standard end marker (CR) in the whole chunk first and only failing that
for the historical alternate end marker (LF); on an end marker, complete the
dataset, wipe the buffer and recurse past the marker. -/
def datasetExtractorPushBody
    (recurse : Bool → List Nat → List Nat → (Bool × List Nat) × List (List Nat) × Nat)
    (sync : Bool) (cur : List Nat) (buf : List Nat) :
    (Bool × List Nat) × List (List Nat) × Nat :=
  if buf.length = 0 then ((sync, cur), [], 0)
  else if sync = false then
    match memchr LF buf with
    | some k =>
      let r := recurse true cur (buf.drop (k + 1))
      (r.1, r.2.1, (k + 1) + r.2.2)
    | none => ((false, cur), [], buf.length)
  else
    let endOfDataset :=
      match memchr END_MARKER_TIC_1 buf with
      | some e1 => some e1
      | none => memchr END_MARKER_TIC_2 buf
    match endOfDataset with
    | some e =>
      let p := processIncomingDatasetBytes cur (buf.take e) true
      let r := recurse false [] (buf.drop (e + 1))
      (r.1, p.2.1 ++ r.2.1, (p.2.2 + 1) + r.2.2)
    | none =>
      let p := processIncomingDatasetBytes cur buf false
      ((true, p.1), [], p.2.2)

/-- `TIC::DatasetExtractor::pushBytes`, fueled. -/
def datasetExtractorPush (fuel : Nat) (sync : Bool) (cur : List Nat)
    (buf : List Nat) : (Bool × List Nat) × List (List Nat) × Nat :=
  match fuel with
  | 0 => ((sync, cur), [], 0)
  | fuel + 1 => datasetExtractorPushBody (datasetExtractorPush fuel) sync cur buf

/-- `TIC::DatasetExtractor::pushBytes` with sufficient fuel.  The state is the
`sync` flag and the buffered bytes of the current dataset
(`currentDataset[0..nextWriteInCurrentDataset)`). -/
def DatasetExtractor.pushBytes (sync : Bool) (cur : List Nat) (buf : List Nat) :
    (Bool × List Nat) × List (List Nat) × Nat :=
  datasetExtractorPush (buf.length + 1) sync cur buf

/-- `TIC::DatasetExtractor::reset`: drop sync and wipe the buffer. -/
def DatasetExtractor.reset : Bool × List Nat := (false, [])

/-- Per-byte dataset-extractor machine: out of sync, wait for LF; in sync, an
end marker (CR, or the historical alternate LF) completes the buffered
dataset; any other byte is appended, truncating at 128 bytes. -/
def stepDE (st : Bool × List Nat) (b : Nat) : (Bool × List Nat) × List (List Nat) :=
  if st.1 = false then ((decide (b = LF), st.2), [])
  else if b = END_MARKER_TIC_1 ∨ b = END_MARKER_TIC_2 then ((false, []), [st.2])
  else ((true, if st.2.length < MAX_DATASET_SIZE then st.2 ++ [b] else st.2), [])

/-- Run the per-byte dataset-extractor machine over a byte list. -/
def runDE (st : Bool × List Nat) : List Nat → (Bool × List Nat) × List (List Nat)
  | [] => (st, [])
  | b :: r =>
    let s := stepDE st b
    let t := runDE s.1 r
    (t.1, s.2 ++ t.2)

/-- `cleanDE sync buf` holds when the per-byte run never meets an LF byte
while inside a dataset (the chunk-granularity-sensitive case). -/
def cleanDE (sync : Bool) : List Nat → Bool
  | [] => true
  | b :: r =>
    if sync = false then cleanDE (decide (b = LF)) r
    else if b = END_MARKER_TIC_2 then false
    else cleanDE (decide (¬ b = END_MARKER_TIC_1)) r

/-- A sequence of `TIC::DatasetExtractor::pushBytes` calls, one per chunk. -/
def DatasetExtractor.pushChunks (st : Bool × List Nat) :
    List (List Nat) → (Bool × List Nat) × List (List Nat)
  | [] => (st, [])
  | c :: cs =>
    let r := DatasetExtractor.pushBytes st.1 st.2 c
    let t := DatasetExtractor.pushChunks r.1 cs
    (t.1, r.2.1 ++ t.2)

/-- `TIC::Horodate::Season`. -/
inductive Season where
  | Unknown
  | Winter
  | Summer
  | Malformed
deriving DecidableEq, Repr

/-- `TIC::Horodate` with its fields.  `init` mirrors the default constructor
(`isValid=false`, `season=Unknown`, `degradedTime=true`, numerics 0). -/
structure Horodate where
  isValid : Bool
  season : Season
  degradedTime : Bool
  year : Nat
  month : Nat
  day : Nat
  hour : Nat
  minute : Nat
  second : Nat
deriving DecidableEq, Repr

/-- The default-constructed `TIC::Horodate`. -/
def Horodate.init : Horodate :=
  ⟨false, Season.Unknown, true, 0, 0, 0, 0, 0, 0⟩

/-- ASCII digit test, as written in the C++ (`'0' ≤ b ∧ b ≤ '9'`). -/
def isDigit (b : Nat) : Bool := decide (48 ≤ b ∧ b ≤ 57)

/-- The C++ `bytes[idx]` read (in-bounds in every use below). -/
def byteAt (bytes : List Nat) (i : Nat) : Nat := bytes.getD i 0

/-- `TIC::Horodate::fromLabelBytes`.  Season switch on byte 0 (H/h/E/e/space),
digit check on bytes 1..12 (early return keeps only the season fields), then
field parsing with range checks that clear `isValid` but keep the parsed
values. -/
def Horodate.fromLabelBytes (bytes : List Nat) : Horodate :=
  if bytes.length ≠ 13 then Horodate.init
  else
    let b := fun i => byteAt bytes i
    let afterSeason :=
      if b 0 = 72 then
        { Horodate.init with isValid := true, degradedTime := false, season := Season.Winter }
      else if b 0 = 104 then
        { Horodate.init with isValid := true, degradedTime := true, season := Season.Winter }
      else if b 0 = 69 then
        { Horodate.init with isValid := true, degradedTime := false, season := Season.Summer }
      else if b 0 = 101 then
        { Horodate.init with isValid := true, degradedTime := true, season := Season.Summer }
      else if b 0 = 32 then
        { Horodate.init with isValid := true, degradedTime := false, season := Season.Unknown }
      else
        { Horodate.init with isValid := false, season := Season.Malformed }
    if !(List.range' 1 12).all (fun i => isDigit (b i)) then
      { afterSeason with isValid := false }
    else
      let year := 2000 + (b 1 - 48) * 10 + (b 2 - 48)
      let month := (b 3 - 48) * 10 + (b 4 - 48)
      let day := (b 5 - 48) * 10 + (b 6 - 48)
      let hour := (b 7 - 48) * 10 + (b 8 - 48)
      let minute := (b 9 - 48) * 10 + (b 10 - 48)
      let second := (b 11 - 48) * 10 + (b 12 - 48)
      { afterSeason with
        year := year, month := month, day := day, hour := hour,
        minute := minute, second := second,
        isValid := afterSeason.isValid
          && !decide (month > 12 ∨ month = 0)
          && !decide (day > 31 ∨ day = 0)
          && !decide (hour > 24)
          && !decide (minute ≥ 60)
          && !decide (second ≥ 60) }

/-- `TIC::DatasetView::DatasetType`. -/
inductive DatasetType where
  | Malformed
  | WrongCRC
  | ValidHistorical
  | ValidStandard
deriving DecidableEq, Repr

/-- `TIC::DatasetView`: decoded type, label slice, data slice and horodate.
Slices are represented by their byte contents (`labelBuffer[0..labelSz)` and
`dataBuffer[0..dataSz)`). -/
structure DatasetView where
  decodedType : DatasetType
  label : List Nat
  data : List Nat
  horodate : Horodate
deriving DecidableEq, Repr

/-- `TIC::DatasetView::computeCRC`: sum the bytes in a `uint8_t` accumulator,
keep the low 6 bits and add 0x20. -/
def DatasetView.computeCRC (bytes : List Nat) : Nat :=
  ((bytes.foldl (fun S1 b => (S1 + b) % 256) 0) &&& 0x3F) + 0x20

/-- Loop of `TIC::DatasetView::uint32FromValueBuffer` with its `uint32_t`
accumulator (arithmetic taken modulo 2^32; the guards fire before any wrap).
`4294967295` is the `(uint32_t)-1` error sentinel. -/
def uint32Loop (result : Nat) : List Nat → Nat
  | [] => result
  | digit :: rest =>
    if digit < 48 ∨ 57 < digit then 4294967295
    else if 4294967295 / 10 < result then 4294967295
    else
      let r1 := (result * 10) % 4294967296
      if 4294967295 - (digit - 48) < r1 then 4294967295
      else uint32Loop ((r1 + (digit - 48)) % 4294967296) rest

/-- `TIC::DatasetView::uint32FromValueBuffer`. -/
def DatasetView.uint32FromValueBuffer (buf : List Nat) : Nat := uint32Loop 0 buf

/-- Step 2 of the dataset parse: skip one leading LF if present. -/
def stripStart (bs : List Nat) : List Nat :=
  if bs.head? = some LF then bs.tail else bs

/-- Step 3 of the dataset parse: take the last byte as the checksum byte,
shifting once more if that byte is a trailing CR end marker.  Returns the
checksum byte and the remaining buffer (whose last byte is the delimiter). -/
def crcAndCore (bs : List Nat) : Nat × List Nat :=
  let b1 := stripStart bs
  let crc0 := (b1.getLast?).getD 0
  let b2 := b1.dropLast
  if crc0 = CR then ((b2.getLast?).getD 0, b2.dropLast) else (crc0, b2)

/-- The `TIC::DatasetView::DatasetView` constructor on a dataset buffer. -/
def DatasetView.ofBytes (bs : List Nat) : DatasetView :=
  if bs.length < 5 then ⟨DatasetType.Malformed, bs, bs, Horodate.init⟩
  else
    let crcByte := (crcAndCore bs).1
    let b3 := (crcAndCore bs).2
    let delim := (b3.getLast?).getD 0
    if delim = HT ∨ delim = SP then
      let window := if delim = HT then b3 else b3.dropLast
      let payload := b3.dropLast
      let computedCrc := DatasetView.computeCRC window
      if computedCrc ≠ crcByte then ⟨DatasetType.WrongCRC, [], [], Horodate.init⟩
      else
        match memchr delim payload with
        | none => ⟨DatasetType.Malformed, [], [], Horodate.init⟩
        | some i =>
          if payload.length ≤ i + 1 then ⟨DatasetType.Malformed, [], [], Horodate.init⟩
          else
            let lab := payload.take i
            let rest := payload.drop (i + 1)
            let vtype :=
              if delim = HT then DatasetType.ValidStandard else DatasetType.ValidHistorical
            match memchr delim rest with
            | none => ⟨vtype, lab, rest, Horodate.init⟩
            | some j => ⟨vtype, lab, rest.drop (j + 1), Horodate.fromLabelBytes (rest.take j)⟩
    else ⟨DatasetType.Malformed, bs, bs, Horodate.init⟩

/-- Number of `onFrameComplete` invocations in an emission sequence. -/
def countCompletes : List UEmit → Nat
  | [] => 0
  | UEmit.frameComplete :: r => countCompletes r + 1
  | UEmit.newFrameBytes _ :: r => countCompletes r

/-- The count predicted by the spec: ETX markers observed while in-sync plus
mid-frame STX restarts, per the section 4.1 state machine. -/
def specCountU (sync : Bool) : List Nat → Nat
  | [] => 0
  | b :: r =>
    if sync = false then specCountU (decide (b = STX)) r
    else if b = ETX then specCountU false r + 1
    else if b = STX then specCountU true r + 1
    else specCountU true r

/-- Declarative frame decomposition of a byte stream, relative to the run's
sync state.  `UDec sync buf frames pend` says `buf` splits into discarded
garbage, completed frames and a pending (unterminated) frame such that each
completed frame's bytes are exactly the bytes strictly between its start
marker and its terminating marker (an ETX, consumed, or the next frame's STX,
not consumed). -/
inductive UDec : Bool → List Nat → List (List Nat) → List Nat → Prop where
  | outNoStx (g : List Nat) (hg : ∀ b ∈ g, b ≠ STX) : UDec false g [] []
  | outEnter (g rest : List Nat) (frames : List (List Nat)) (pend : List Nat)
      (hg : ∀ b ∈ g, b ≠ STX) (h : UDec true rest frames pend) :
      UDec false (g ++ STX :: rest) frames pend
  | inOpen (f : List Nat) (hf : ∀ b ∈ f, b ≠ ETX ∧ b ≠ STX) : UDec true f [] f
  | inEtx (f rest : List Nat) (frames : List (List Nat)) (pend : List Nat)
      (hf : ∀ b ∈ f, b ≠ ETX) (h : UDec false rest frames pend) :
      UDec true (f ++ ETX :: rest) (f :: frames) pend
  | inRestart (f rest : List Nat) (frames : List (List Nat)) (pend : List Nat)
      (hf : ∀ b ∈ f, b ≠ ETX ∧ b ≠ STX) (h : UDec true rest frames pend) :
      UDec true (f ++ STX :: rest) (f :: frames) pend

/-- Render a frame decomposition as the flattened event stream: for each
completed frame its payload bytes followed by its completion, then the pending
frame's bytes. -/
def renderU (frames : List (List Nat)) (pend : List Nat) : List UEv :=
  (frames.map (fun f => f.map UEv.byte ++ [UEv.complete])).flatten ++ pend.map UEv.byte

/-- Decimal value of an ASCII digit string (most significant digit first). -/
def decimalValue (bs : List Nat) : Nat :=
  bs.foldl (fun a d => 10 * a + (d - 48)) 0

/-- Modelled from the spec: the `FixedSizeRingBuffer<unsigned int, 128>` that
`inc/TIC/Unframer.h` declares as `frameSizeHistory`; its defining header
`FixedSizeRingBuffer.h` is not in the tree.  Per section 3 of the spec it is a
fixed-capacity ring of the last 128 observed frame sizes, insertion-ordered:
a 128-slot store, a circular write index and a saturating element count. -/
structure FixedSizeRingBuffer where
  buffer : List Nat
  writeIdx : Nat
  count : Nat

/-- The freshly-constructed (empty) ring. -/
def FixedSizeRingBuffer.empty : FixedSizeRingBuffer :=
  ⟨List.replicate 128 0, 0, 0⟩

/-- Modelled from the spec: `TIC::Unframer::recordFrameSize` (declared in
`inc/TIC/Unframer.h`, implementation not in the tree): store the new size at
the write index, advance it circularly, saturate the count at 128. -/
def recordFrameSize (r : FixedSizeRingBuffer) (sz : Nat) : FixedSizeRingBuffer :=
  ⟨r.buffer.set r.writeIdx sz, (r.writeIdx + 1) % 128, min (r.count + 1) 128⟩

/-- Modelled from the spec: `TIC::Unframer::getMaxFrameSizeFromRecentHistory`
(declared in the headers, implementation not in the tree): the max over the
ring's recorded entries, read oldest to newest; zero when none recorded. -/
def Unframer.getMaxFrameSizeFromRecentHistory (r : FixedSizeRingBuffer) : Nat :=
  ((List.range r.count).map
      (fun i => r.buffer.getD ((r.writeIdx + 128 - r.count + i) % 128) 0)).foldr max 0

/-- Completed-frame sizes observed in a flattened emission stream: the number
of payload bytes delivered before each `onFrameComplete`. -/
def frameSizesAux (acc : Nat) : List UEv → List Nat
  | [] => []
  | UEv.byte _ :: r => frameSizesAux (acc + 1) r
  | UEv.complete :: r => acc :: frameSizesAux 0 r

/-- Sizes of the completed frames of an emission stream, in order. -/
def frameSizes (evs : List UEv) : List Nat := frameSizesAux 0 evs

/-- A call sequence against a `TIC::DatasetExtractor`: `pushBytes` chunks and
`reset` calls, in any order. -/
inductive DEOp where
  | push (chunk : List Nat)
  | reset

/-- Run a sequence of operations from a state, collecting every
`onDatasetExtracted` payload. -/
def DatasetExtractor.runOps (st : Bool × List Nat) :
    List DEOp → (Bool × List Nat) × List (List Nat)
  | [] => (st, [])
  | DEOp.push c :: ops =>
    let r := DatasetExtractor.pushBytes st.1 st.2 c
    let t := DatasetExtractor.runOps r.1 ops
    (t.1, r.2.1 ++ t.2)
  | DEOp.reset :: ops => DatasetExtractor.runOps DatasetExtractor.reset ops

theorem memchr_lt_length {c : Nat} {l : List Nat} {k : Nat}
    (h : memchr c l = some k) : k < l.length := by
  induction l generalizing k with
  | nil => simp [memchr] at h
  | cons b rest ih =>
    simp only [memchr] at h
    split at h
    · cases h; simp
    · cases hm : memchr c rest with
      | none => rw [hm] at h; simp at h
      | some k' =>
        rw [hm] at h
        simp only [Option.map_some'] at h
        cases h
        have := ih hm
        simp; omega

theorem unframerPush_fuel_congr :
    ∀ (f1 : Nat) (f2 : Nat) (sync : Bool) (buf : List Nat),
      unframerMeasure sync buf ≤ f1 → unframerMeasure sync buf ≤ f2 →
      unframerPush f1 sync buf = unframerPush f2 sync buf := by
  intro f1
  induction f1 with
  | zero =>
    intro f2 sync buf h1 _
    cases sync <;> simp [unframerMeasure] at h1
  | succ n ih =>
    intro f2 sync buf h1 h2
    cases f2 with
    | zero => cases sync <;> simp [unframerMeasure] at h2
    | succ m =>
      show unframerPushBody (unframerPush n) sync buf
         = unframerPushBody (unframerPush m) sync buf
      unfold unframerPushBody
      by_cases hlen : buf.length = 0
      · simp [hlen]
      · cases sync with
        | false =>
          simp only [hlen, if_false, reduceIte]
          split
          · next k heq =>
            have hk := memchr_lt_length heq
            rw [ih m true (buf.drop (k + 1))
                (by simp [unframerMeasure] at h1 ⊢; omega)
                (by simp [unframerMeasure] at h2 ⊢; omega)]
          · rfl
        | true =>
          simp only [hlen, if_false, Bool.true_eq_false, reduceIte]
          split
          · next e heq =>
            have he := memchr_lt_length heq
            rw [ih m false (buf.drop (e + 1))
                (by simp [unframerMeasure] at h1 ⊢; omega)
                (by simp [unframerMeasure] at h2 ⊢; omega)]
          · next heq =>
            split
            · next s heq2 =>
              have hs := memchr_lt_length heq2
              rw [ih m false (buf.drop s)
                  (by simp [unframerMeasure] at h1 ⊢; omega)
                  (by simp [unframerMeasure] at h2 ⊢; omega)]
            · rfl

/-- Unfolding equation for `Unframer.pushBytes`, with the C++ self-recursion
expressed through `Unframer.pushBytes` itself. -/
theorem unframer_pushBytes_eq (sync : Bool) (buf : List Nat) :
    Unframer.pushBytes sync buf = unframerPushBody Unframer.pushBytes sync buf := by
  show unframerPush (2 * buf.length + 2) sync buf = _
  show unframerPushBody (unframerPush (2 * buf.length + 1)) sync buf = _
  unfold unframerPushBody Unframer.pushBytes
  by_cases hlen : buf.length = 0
  · simp [hlen]
  · cases sync with
    | false =>
      simp only [hlen, if_false, reduceIte]
      split
      · next k heq =>
        have hk := memchr_lt_length heq
        rw [unframerPush_fuel_congr (2 * buf.length + 1)
            (2 * (buf.drop (k + 1)).length + 2) true (buf.drop (k + 1))
            (by simp [unframerMeasure]; omega) (by simp [unframerMeasure])]
      · rfl
    | true =>
      simp only [hlen, if_false, Bool.true_eq_false, reduceIte]
      split
      · next e heq =>
        have he := memchr_lt_length heq
        rw [unframerPush_fuel_congr (2 * buf.length + 1)
            (2 * (buf.drop (e + 1)).length + 2) false (buf.drop (e + 1))
            (by simp [unframerMeasure]) (by simp [unframerMeasure])]
      · next heq =>
        split
        · next s heq2 =>
          have hs := memchr_lt_length heq2
          rw [unframerPush_fuel_congr (2 * buf.length + 1)
              (2 * (buf.drop s).length + 2) false (buf.drop s)
              (by simp [unframerMeasure]) (by simp [unframerMeasure])]
        · rfl

theorem memchr_none_iff {c : Nat} {l : List Nat} :
    memchr c l = none ↔ ∀ b ∈ l, b ≠ c := by
  induction l with
  | nil => simp [memchr]
  | cons b rest ih =>
    simp only [memchr]
    by_cases hb : b = c
    · simp [hb]
    · simp [hb, ih]

theorem memchr_take {c : Nat} {l : List Nat} {k : Nat}
    (h : memchr c l = some k) : ∀ b ∈ l.take k, b ≠ c := by
  induction l generalizing k with
  | nil => simp [memchr] at h
  | cons b rest ih =>
    simp only [memchr] at h
    split at h
    · cases h; simp
    · next hb =>
      cases hm : memchr c rest with
      | none => rw [hm] at h; simp at h
      | some k' =>
        rw [hm] at h
        simp only [Option.map_some'] at h
        cases h
        intro x hx
        simp only [List.take_succ_cons, List.mem_cons] at hx
        rcases hx with rfl | hx
        · exact hb
        · exact ih hm x hx

theorem memchr_drop {c : Nat} {l : List Nat} {k : Nat}
    (h : memchr c l = some k) : l.drop k = c :: l.drop (k + 1) := by
  induction l generalizing k with
  | nil => simp [memchr] at h
  | cons b rest ih =>
    simp only [memchr] at h
    split at h
    · next hb => cases h; simp [hb]
    · cases hm : memchr c rest with
      | none => rw [hm] at h; simp at h
      | some k' =>
        rw [hm] at h
        simp only [Option.map_some'] at h
        cases h
        simpa using ih hm

theorem take_append_drop_memchr {c : Nat} {l : List Nat} {k : Nat}
    (h : memchr c l = some k) : l = l.take k ++ c :: l.drop (k + 1) := by
  conv_lhs => rw [← List.take_append_drop k l]
  rw [memchr_drop h]

theorem take_min_length {α : Type} (l : List α) (m : Nat) :
    l.take (min l.length m) = l.take m := by
  cases Nat.le_total l.length m with
  | inl h => rw [min_eq_left h, List.take_length, List.take_of_length_le h]
  | inr h => rw [min_eq_right h]

theorem runU_append (s : Bool) (xs ys : List Nat) :
    runU s (xs ++ ys) =
      ((runU (runU s xs).1 ys).1, (runU s xs).2 ++ (runU (runU s xs).1 ys).2) := by
  induction xs generalizing s with
  | nil => simp [runU]
  | cons b r ih => simp [runU, ih]

theorem cleanU_append (s : Bool) (xs ys : List Nat) :
    cleanU s (xs ++ ys) = (cleanU s xs && cleanU (runU s xs).1 ys) := by
  induction xs generalizing s with
  | nil => simp [cleanU, runU]
  | cons b r ih =>
    by_cases hs : s = false
    · subst hs
      simp [cleanU, runU, stepU, ih]
    · replace hs : s = true := by revert hs; cases s <;> simp
      subst hs
      by_cases hb : b = STX
      · simp [cleanU, hb]
      · by_cases he : b = ETX <;>
          simp [cleanU, runU, stepU, hb, he, ih, Bool.and_assoc]

theorem runU_outsync_skip {g : List Nat} (hg : ∀ b ∈ g, b ≠ STX) :
    runU false g = (false, []) := by
  induction g with
  | nil => rfl
  | cons b r ih =>
    have hb := hg b (by simp)
    simp only [runU, stepU, reduceIte, hb, decide_eq_true_eq]
    simp [hb, ih fun x hx => hg x (by simp [hx])]

theorem runU_payload {f : List Nat} (he : ∀ b ∈ f, b ≠ ETX) (hs : ∀ b ∈ f, b ≠ STX) :
    runU true f = (true, f.map UEv.byte) := by
  induction f with
  | nil => rfl
  | cons b r ih =>
    have hb1 := he b (by simp)
    have hb2 := hs b (by simp)
    simp only [runU, stepU, reduceIte, hb1, hb2]
    simp [hb1, hb2, ih (fun x hx => he x (by simp [hx])) (fun x hx => hs x (by simp [hx]))]

theorem cleanU_payload {f rest : List Nat} (he : ∀ b ∈ f, b ≠ ETX)
    (h : cleanU true (f ++ rest) = true) :
    (∀ b ∈ f, b ≠ STX) ∧ cleanU true rest = true := by
  induction f with
  | nil => exact ⟨by simp, h⟩
  | cons b r ih =>
    have hb1 := he b (by simp)
    simp only [List.cons_append, cleanU] at h
    by_cases hb2 : b = STX
    · simp [hb2] at h
    · simp [hb2, hb1] at h
      obtain ⟨ih1, ih2⟩ := ih (fun x hx => he x (by simp [hx])) h
      refine ⟨?_, ih2⟩
      intro x hx
      rcases List.mem_cons.1 hx with rfl | hx
      · exact hb2
      · exact ih1 x hx

theorem flattenU_append (a b : List UEmit) :
    flattenU (a ++ b) = flattenU a ++ flattenU b := by
  induction a with
  | nil => rfl
  | cons e r ih => cases e <;> simp [flattenU, ih]

theorem flattenU_processIncomingFrameBytes (p : List Nat) :
    flattenU (processIncomingFrameBytes p) = p.map UEv.byte := by
  cases p <;> simp [processIncomingFrameBytes, flattenU]

theorem unframer_perByte :
    ∀ (n : Nat) (sync : Bool) (buf : List Nat), buf.length ≤ n →
      cleanU sync buf = true →
      (Unframer.pushBytes sync buf).1 = (runU sync buf).1 ∧
      flattenU (Unframer.pushBytes sync buf).2.1 = (runU sync buf).2 := by
  intro n
  induction n with
  | zero =>
    intro sync buf hlen _
    have hbuf : buf = [] := List.length_eq_zero.1 (Nat.le_zero.1 hlen)
    subst hbuf
    rw [unframer_pushBytes_eq]
    simp [unframerPushBody, runU, flattenU]
  | succ n ih =>
    intro sync buf hlen hclean
    by_cases h0 : buf.length = 0
    · have hbuf : buf = [] := List.length_eq_zero.1 h0
      subst hbuf
      rw [unframer_pushBytes_eq]
      simp [unframerPushBody, runU, flattenU]
    · rw [unframer_pushBytes_eq]
      unfold unframerPushBody
      cases sync with
      | false =>
        simp only [h0, if_false, reduceIte]
        split
        · next k heq =>
          have hk := memchr_lt_length heq
          have hdec := take_append_drop_memchr heq
          have htk := memchr_take heq
          have hrun : runU false buf = runU true (buf.drop (k + 1)) := by
            conv_lhs => rw [hdec]
            rw [runU_append, runU_outsync_skip htk]
            simp [runU, stepU, STX]
          have hclean2 : cleanU true (buf.drop (k + 1)) = true := by
            rw [hdec, cleanU_append, runU_outsync_skip htk] at hclean
            simp [cleanU, STX] at hclean
            exact hclean.2
          obtain ⟨ih1, ih2⟩ := ih true (buf.drop (k + 1)) (by simp; omega) hclean2
          rw [hrun]
          exact ⟨ih1, ih2⟩
        · next heq =>
          have hall := memchr_none_iff.1 heq
          rw [runU_outsync_skip hall]
          simp [flattenU]
      | true =>
        simp only [h0, if_false, Bool.true_eq_false, reduceIte]
        split
        · next e heq =>
          have he' := memchr_lt_length heq
          have hdec := take_append_drop_memchr heq
          have htk := memchr_take heq
          have hpay := cleanU_payload htk (by rw [← hdec]; exact hclean)
          have hstx := hpay.1
          have hclean2 : cleanU false (buf.drop (e + 1)) = true := by
            have := hpay.2
            simp [cleanU, ETX, STX] at this
            exact this
          have hrun : runU true buf =
              ((runU false (buf.drop (e + 1))).1,
               (buf.take e).map UEv.byte ++ UEv.complete :: (runU false (buf.drop (e + 1))).2) := by
            conv_lhs => rw [hdec]
            rw [runU_append, runU_payload htk hstx]
            simp [runU, stepU, ETX, STX]
          obtain ⟨ih1, ih2⟩ := ih false (buf.drop (e + 1)) (by simp; omega) hclean2
          rw [hrun]
          constructor
          · exact ih1
          · rw [flattenU_append, flattenU_processIncomingFrameBytes]
            simp [flattenU, ih2]
        · next heqE =>
          split
          · next s heqS =>
            exfalso
            have hdec := take_append_drop_memchr heqS
            have htkE : ∀ b ∈ buf.take s, b ≠ ETX :=
              fun b hb => memchr_none_iff.1 heqE b (List.take_subset _ _ hb)
            have hpay := cleanU_payload htkE (by rw [← hdec]; exact hclean)
            have := hpay.2
            simp [cleanU] at this
          · next heqS =>
            have hallE := memchr_none_iff.1 heqE
            have hallS := memchr_none_iff.1 heqS
            rw [runU_payload hallE hallS]
            simp [flattenU_processIncomingFrameBytes]

/-- Chunk-independence of the flattened emission stream, for streams with no
mid-frame STX: feeding the chunks one `pushBytes` call at a time produces the
same flattened events (payload bytes and frame completions, in order) and the
same final sync state as feeding the concatenation in a single call. -/
theorem unframer_chunk_independent (chunks : List (List Nat)) (sync : Bool)
    (hclean : cleanU sync chunks.flatten = true) :
    (Unframer.pushChunks sync chunks).1 = (Unframer.pushBytes sync chunks.flatten).1 ∧
    flattenU (Unframer.pushChunks sync chunks).2 =
      flattenU (Unframer.pushBytes sync chunks.flatten).2.1 := by
  obtain ⟨h1, h2⟩ := unframer_perByte chunks.flatten.length sync chunks.flatten le_rfl hclean
  rw [h1, h2]
  clear h1 h2
  induction chunks generalizing sync with
  | nil => simp [Unframer.pushChunks, runU, flattenU]
  | cons c cs ihc =>
    simp only [List.flatten_cons] at hclean
    rw [cleanU_append] at hclean
    rw [Bool.and_eq_true] at hclean
    have hc1 : cleanU sync c = true := hclean.1
    have hc2 : cleanU (runU sync c).1 cs.flatten = true := hclean.2
    obtain ⟨p1, p2⟩ := unframer_perByte c.length sync c le_rfl hc1
    simp only [Unframer.pushChunks, List.flatten_cons, runU_append, flattenU_append]
    rw [p1, p2]
    obtain ⟨q1, q2⟩ := ihc (runU sync c).1 hc2
    rw [q1, q2]
    exact ⟨rfl, rfl⟩

theorem datasetExtractorPush_fuel_congr :
    ∀ (f1 : Nat) (f2 : Nat) (sync : Bool) (cur : List Nat) (buf : List Nat),
      buf.length + 1 ≤ f1 → buf.length + 1 ≤ f2 →
      datasetExtractorPush f1 sync cur buf = datasetExtractorPush f2 sync cur buf := by
  intro f1
  induction f1 with
  | zero => intro f2 sync cur buf h1 _; omega
  | succ n ih =>
    intro f2 sync cur buf h1 h2
    cases f2 with
    | zero => omega
    | succ m =>
      show datasetExtractorPushBody (datasetExtractorPush n) sync cur buf
         = datasetExtractorPushBody (datasetExtractorPush m) sync cur buf
      unfold datasetExtractorPushBody
      by_cases hlen : buf.length = 0
      · simp [hlen]
      · cases sync with
        | false =>
          simp only [hlen, if_false, reduceIte]
          split
          · next k heq =>
            have hk := memchr_lt_length heq
            rw [ih m true cur (buf.drop (k + 1)) (by simp; omega) (by simp; omega)]
          · rfl
        | true =>
          simp only [hlen, if_false, Bool.true_eq_false, reduceIte]
          split
          · next e heq =>
            have he : e < buf.length := by
              revert heq
              cases h1 : memchr END_MARKER_TIC_1 buf with
              | some e1 => intro h; cases h; exact memchr_lt_length h1
              | none => intro h; exact memchr_lt_length h
            rw [ih m false [] (buf.drop (e + 1)) (by simp; omega) (by simp; omega)]
          · rfl

/-- Unfolding equation for `DatasetExtractor.pushBytes`. -/
theorem datasetExtractor_pushBytes_eq (sync : Bool) (cur : List Nat) (buf : List Nat) :
    DatasetExtractor.pushBytes sync cur buf =
      datasetExtractorPushBody DatasetExtractor.pushBytes sync cur buf := by
  show datasetExtractorPushBody (datasetExtractorPush buf.length) sync cur buf = _
  unfold datasetExtractorPushBody DatasetExtractor.pushBytes
  by_cases hlen : buf.length = 0
  · simp [hlen]
  · cases sync with
    | false =>
      simp only [hlen, if_false, reduceIte]
      split
      · next k heq =>
        have hk := memchr_lt_length heq
        rw [datasetExtractorPush_fuel_congr buf.length ((buf.drop (k + 1)).length + 1)
            true cur (buf.drop (k + 1)) (by simp; omega) (by simp)]
      · rfl
    | true =>
      simp only [hlen, if_false, Bool.true_eq_false, reduceIte]
      split
      · next e heq =>
        have he : e < buf.length := by
          revert heq
          cases h1 : memchr END_MARKER_TIC_1 buf with
          | some e1 => intro h; cases h; exact memchr_lt_length h1
          | none => intro h; exact memchr_lt_length h
        rw [datasetExtractorPush_fuel_congr buf.length ((buf.drop (e + 1)).length + 1)
            false [] (buf.drop (e + 1)) (by simp; omega) (by simp)]
      · rfl

theorem runDE_append (st : Bool × List Nat) (xs ys : List Nat) :
    runDE st (xs ++ ys) =
      ((runDE (runDE st xs).1 ys).1, (runDE st xs).2 ++ (runDE (runDE st xs).1 ys).2) := by
  induction xs generalizing st with
  | nil => simp [runDE]
  | cons b r ih => simp [runDE, ih]

theorem cleanDE_append (st : Bool × List Nat) (xs ys : List Nat) :
    cleanDE st.1 (xs ++ ys) = (cleanDE st.1 xs && cleanDE (runDE st xs).1.1 ys) := by
  induction xs generalizing st with
  | nil => simp [cleanDE, runDE]
  | cons b r ih =>
    obtain ⟨sync, cur⟩ := st
    cases sync with
    | false =>
      simpa [cleanDE, runDE, stepDE] using ih ((decide (b = LF)), cur)
    | true =>
      by_cases hb2 : b = END_MARKER_TIC_2
      · simp [cleanDE, hb2]
      · by_cases hb1 : b = END_MARKER_TIC_1
        · subst hb1
          simpa [cleanDE, runDE, stepDE, hb2, Bool.and_assoc] using
            ih (false, [])
        · simpa [cleanDE, runDE, stepDE, hb1, hb2, Bool.and_assoc] using
            ih (true, if cur.length < MAX_DATASET_SIZE then cur ++ [b] else cur)

theorem runDE_outsync_skip {g : List Nat} (cur : List Nat)
    (hg : ∀ b ∈ g, b ≠ LF) : runDE (false, cur) g = ((false, cur), []) := by
  induction g with
  | nil => rfl
  | cons b r ih =>
    have hb := hg b (by simp)
    simp only [runDE, stepDE, reduceIte, hb, decide_eq_true_eq]
    simp [hb, ih fun x hx => hg x (by simp [hx])]

theorem runDE_payload {f : List Nat} (cur : List Nat)
    (h1 : ∀ b ∈ f, b ≠ END_MARKER_TIC_1) (h2 : ∀ b ∈ f, b ≠ END_MARKER_TIC_2) :
    runDE (true, cur) f =
      ((true, cur ++ f.take (MAX_DATASET_SIZE - cur.length)), []) := by
  induction f generalizing cur with
  | nil => simp [runDE]
  | cons b r ih =>
    have hb1 := h1 b (by simp)
    have hb2 := h2 b (by simp)
    have hstep : stepDE (true, cur) b =
        ((true, if cur.length < MAX_DATASET_SIZE then cur ++ [b] else cur), []) := by
      simp [stepDE, hb1, hb2]
    simp only [runDE, hstep]
    rw [ih _ (fun x hx => h1 x (by simp [hx])) (fun x hx => h2 x (by simp [hx]))]
    by_cases hfull : cur.length < MAX_DATASET_SIZE
    · have htake : (b :: r).take (MAX_DATASET_SIZE - cur.length)
          = b :: r.take (MAX_DATASET_SIZE - (cur.length + 1)) := by
        have : MAX_DATASET_SIZE - cur.length = (MAX_DATASET_SIZE - (cur.length + 1)) + 1 := by
          omega
        rw [this, List.take_succ_cons]
      simp [hfull, htake, hb1, hb2]
    · have h0 : MAX_DATASET_SIZE - cur.length = 0 := by omega
      have h0' : MAX_DATASET_SIZE - (cur ++ [b]).length = 0 := by simp; omega
      simp [hfull, h0, hb1, hb2]

theorem cleanDE_payload {f rest : List Nat} (h1 : ∀ b ∈ f, b ≠ END_MARKER_TIC_1)
    (h : cleanDE true (f ++ rest) = true) :
    (∀ b ∈ f, b ≠ END_MARKER_TIC_2) ∧ cleanDE true rest = true := by
  induction f with
  | nil => exact ⟨by simp, h⟩
  | cons b r ih =>
    have hb1 := h1 b (by simp)
    simp only [List.cons_append, cleanDE] at h
    by_cases hb2 : b = END_MARKER_TIC_2
    · simp [hb2] at h
    · simp [hb2, hb1] at h
      obtain ⟨ih1, ih2⟩ := ih (fun x hx => h1 x (by simp [hx])) h
      refine ⟨?_, ih2⟩
      intro x hx
      rcases List.mem_cons.1 hx with rfl | hx
      · exact hb2
      · exact ih1 x hx

theorem datasetExtractor_perByte :
    ∀ (n : Nat) (sync : Bool) (cur : List Nat) (buf : List Nat), buf.length ≤ n →
      cleanDE sync buf = true →
      (DatasetExtractor.pushBytes sync cur buf).1 = (runDE (sync, cur) buf).1 ∧
      (DatasetExtractor.pushBytes sync cur buf).2.1 = (runDE (sync, cur) buf).2 := by
  intro n
  induction n with
  | zero =>
    intro sync cur buf hlen _
    have hbuf : buf = [] := List.length_eq_zero.1 (Nat.le_zero.1 hlen)
    subst hbuf
    rw [datasetExtractor_pushBytes_eq]
    simp [datasetExtractorPushBody, runDE]
  | succ n ih =>
    intro sync cur buf hlen hclean
    by_cases h0 : buf.length = 0
    · have hbuf : buf = [] := List.length_eq_zero.1 h0
      subst hbuf
      rw [datasetExtractor_pushBytes_eq]
      simp [datasetExtractorPushBody, runDE]
    · rw [datasetExtractor_pushBytes_eq]
      unfold datasetExtractorPushBody
      cases sync with
      | false =>
        simp only [h0, if_false, reduceIte]
        split
        · next k heq =>
          have hk := memchr_lt_length heq
          have hdec := take_append_drop_memchr heq
          have htk := memchr_take heq
          have hrun : runDE (false, cur) buf = runDE (true, cur) (buf.drop (k + 1)) := by
            conv_lhs => rw [hdec]
            rw [runDE_append, runDE_outsync_skip cur htk]
            simp [runDE, stepDE, LF]
          have hclean2 : cleanDE true (buf.drop (k + 1)) = true := by
            rw [hdec, show cleanDE false (buf.take k ++ LF :: buf.drop (k + 1))
                  = cleanDE (false, cur).1 (buf.take k ++ LF :: buf.drop (k + 1)) from rfl,
                cleanDE_append, runDE_outsync_skip cur htk] at hclean
            simp [cleanDE, LF] at hclean
            exact hclean.2
          obtain ⟨ih1, ih2⟩ := ih true cur (buf.drop (k + 1)) (by simp; omega) hclean2
          rw [hrun]
          exact ⟨ih1, ih2⟩
        · next heq =>
          have hall := memchr_none_iff.1 heq
          rw [runDE_outsync_skip cur hall]
          exact ⟨rfl, rfl⟩
      | true =>
        simp only [h0, if_false, Bool.true_eq_false, reduceIte]
        cases heq1 : memchr END_MARKER_TIC_1 buf with
        | some e =>
          simp only
          have he := memchr_lt_length heq1
          have hdec := take_append_drop_memchr heq1
          have htk := memchr_take heq1
          have hpay := cleanDE_payload htk (by rw [← hdec]; exact hclean)
          have hLF := hpay.1
          have hclean2 : cleanDE false (buf.drop (e + 1)) = true := by
            have := hpay.2
            simp [cleanDE, END_MARKER_TIC_1, END_MARKER_TIC_2] at this
            exact this
          have hrun : runDE (true, cur) buf =
              ((runDE (false, []) (buf.drop (e + 1))).1,
               (cur ++ (buf.take e).take (MAX_DATASET_SIZE - cur.length))
                 :: (runDE (false, []) (buf.drop (e + 1))).2) := by
            conv_lhs => rw [hdec]
            rw [runDE_append, runDE_payload cur htk hLF]
            simp [runDE, stepDE, END_MARKER_TIC_1]
          obtain ⟨ih1, ih2⟩ := ih false [] (buf.drop (e + 1)) (by simp; omega) hclean2
          rw [hrun]
          constructor
          · exact ih1
          · simp [processIncomingDatasetBytes, take_min_length, ih2]
            omega
        | none =>
          cases heq2 : memchr END_MARKER_TIC_2 buf with
          | some s =>
            exfalso
            have hdec := take_append_drop_memchr heq2
            have htkE : ∀ b ∈ buf.take s, b ≠ END_MARKER_TIC_1 :=
              fun b hb => memchr_none_iff.1 heq1 b (List.take_subset _ _ hb)
            have hpay := cleanDE_payload htkE (by rw [← hdec]; exact hclean)
            have := hpay.2
            simp [cleanDE] at this
          | none =>
            simp only
            have hall1 := memchr_none_iff.1 heq1
            have hall2 := memchr_none_iff.1 heq2
            rw [runDE_payload cur hall1 hall2]
            simp [processIncomingDatasetBytes, take_min_length]

/-- Chunk-independence of the dataset emissions, for streams with no LF while
inside a dataset: feeding the chunks one `pushBytes` call at a time extracts
exactly the same datasets, in the same order, with the same final state, as
feeding the concatenation in a single call. -/
theorem datasetExtractor_chunk_independent (chunks : List (List Nat))
    (st : Bool × List Nat) (hclean : cleanDE st.1 chunks.flatten = true) :
    (DatasetExtractor.pushChunks st chunks).1 =
      (DatasetExtractor.pushBytes st.1 st.2 chunks.flatten).1 ∧
    (DatasetExtractor.pushChunks st chunks).2 =
      (DatasetExtractor.pushBytes st.1 st.2 chunks.flatten).2.1 := by
  obtain ⟨h1, h2⟩ :=
    datasetExtractor_perByte chunks.flatten.length st.1 st.2 chunks.flatten le_rfl hclean
  rw [h1, h2]
  clear h1 h2
  induction chunks generalizing st with
  | nil => simp [DatasetExtractor.pushChunks, runDE]
  | cons c cs ihc =>
    simp only [List.flatten_cons] at hclean
    rw [cleanDE_append] at hclean
    rw [Bool.and_eq_true] at hclean
    obtain ⟨p1, p2⟩ := datasetExtractor_perByte c.length st.1 st.2 c le_rfl hclean.1
    simp only [DatasetExtractor.pushChunks, List.flatten_cons, runDE_append]
    rw [p1, p2]
    obtain ⟨q1, q2⟩ := ihc (runDE st c).1 hclean.2
    rw [q1, q2]
    exact ⟨rfl, rfl⟩

/-- Claim C1 (counterexample): pushing the chunks `[02 41] [02] [42 03]` of the
byte stream `02 41 02 42 03` one `pushBytes` call at a time does not produce
the same emission sequence as pushing the whole stream at once.  At once, the
mid-frame STX is swallowed into the payload of a single frame (`41 02 42`,
one `onFrameComplete`); chunked, the mid-frame STX restarts a frame (two
`onFrameComplete`s).  The emission sequences differ even after flattening. -/
theorem C1_counterexample :
    ¬ ((Unframer.pushChunks false [[2, 65], [2], [66, 3]]).2
        = (Unframer.pushBytes false [2, 65, 2, 66, 3]).2.1) := by
  decide

/-- Claim C1 (amended): chunk-independence holds for byte streams that never
contain an STX while inside a frame (for the Unframer) and never an LF while
inside a dataset (for the DatasetExtractor): chunked pushing then emits the
same flattened byte/complete event stream as a single push (for the on-the-fly
Unframer the payload bytes may be split across different `onNewFrameBytes`
calls, hence flattening), and for the DatasetExtractor the very same dataset
payload sequence. -/
theorem C1_chunk_independence (chunks : List (List Nat))
    (hU : cleanU false chunks.flatten = true)
    (hD : cleanDE false chunks.flatten = true) :
    flattenU (Unframer.pushChunks false chunks).2 =
      flattenU (Unframer.pushBytes false chunks.flatten).2.1 ∧
    (DatasetExtractor.pushChunks (false, []) chunks).2 =
      (DatasetExtractor.pushBytes false [] chunks.flatten).2.1 :=
  ⟨(unframer_chunk_independent chunks false hU).2,
   (datasetExtractor_chunk_independent chunks (false, []) hD).2⟩

/-- Claim C1 (witness for the amended statement): a concrete clean stream,
chunked in two. -/
theorem C1_witness :
    cleanU false ([[2, 65], [66, 3]] : List (List Nat)).flatten = true ∧
    cleanDE false ([[2, 65], [66, 3]] : List (List Nat)).flatten = true ∧
    (flattenU (Unframer.pushChunks false [[2, 65], [66, 3]]).2 =
       flattenU (Unframer.pushBytes false ([[2, 65], [66, 3]] : List (List Nat)).flatten).2.1 ∧
     (DatasetExtractor.pushChunks (false, []) [[2, 65], [66, 3]]).2 =
       (DatasetExtractor.pushBytes false [] ([[2, 65], [66, 3]] : List (List Nat)).flatten).2.1) :=
  ⟨by decide, by decide, C1_chunk_independence [[2, 65], [66, 3]] (by decide) (by decide)⟩

theorem countCompletes_append (a b : List UEmit) :
    countCompletes (a ++ b) = countCompletes a + countCompletes b := by
  induction a with
  | nil => simp [countCompletes]
  | cons e r ih =>
    cases e
    · simp [countCompletes, ih]
    · simp [countCompletes, ih]
      omega

/-- `pushBytes` on a chunk starting with STX while out of sync: consume the
STX and continue in-frame. -/
theorem pushBytes_stx_head (t : List Nat) :
    Unframer.pushBytes false (STX :: t) =
      ((Unframer.pushBytes true t).1, (Unframer.pushBytes true t).2.1,
       1 + (Unframer.pushBytes true t).2.2) := by
  rw [unframer_pushBytes_eq]
  simp [unframerPushBody, memchr]

theorem pushBytes_single_completes :
    ∀ (B : List Nat) (sync : Bool),
      countCompletes (Unframer.pushChunks sync (B.map (fun b => [b]))).2
          = specCountU sync B ∧
      (Unframer.pushChunks sync (B.map (fun b => [b]))).1 = (runU sync B).1 := by
  intro B
  induction B with
  | nil => intro sync; simp [Unframer.pushChunks, countCompletes, specCountU, runU]
  | cons b r ih =>
    intro sync
    simp only [List.map_cons, Unframer.pushChunks]
    rw [countCompletes_append]
    cases sync with
    | false =>
      by_cases hb : b = STX
      · subst hb
        rw [show Unframer.pushBytes false [STX] = (true, [], 1) from by decide]
        simpa [countCompletes, specCountU, runU, stepU, STX] using ih true
      · rw [show Unframer.pushBytes false [b] = (false, [], 1) from by
            rw [unframer_pushBytes_eq]; simp [unframerPushBody, memchr, hb]]
        simpa [countCompletes, specCountU, runU, stepU, hb] using ih false
    | true =>
      by_cases he : b = ETX
      · subst he
        rw [show Unframer.pushBytes true [ETX] = (false, [UEmit.frameComplete], 1) from by decide]
        have := ih false
        simp [countCompletes, specCountU, runU, stepU, ETX, STX, this.1, this.2]
        omega
      · by_cases hs : b = STX
        · subst hs
          rw [show Unframer.pushBytes true [STX] = (true, [UEmit.frameComplete], 1) from by decide]
          have := ih true
          simp [countCompletes, specCountU, runU, stepU, ETX, STX, this.1, this.2]
          omega
        · rw [show Unframer.pushBytes true [b] = (true, [UEmit.newFrameBytes [b]], 1) from by
              rw [unframer_pushBytes_eq]
              simp [unframerPushBody, memchr, he, hs, processIncomingFrameBytes]]
          simpa [countCompletes, specCountU, runU, stepU, he, hs] using ih true

/-- Claim C4 (counterexample): in the chunk `02 41 02 42 03` pushed in a
single call from out-of-sync, the STX received while inside the frame does
not terminate it: the whole run emits the STX byte inside a single frame
payload and only one `onFrameComplete`, whereas the claim predicts
ETX-in-sync (1) plus mid-frame STX restarts (1) = 2 completions.  The
restart-on-STX rule only fires when no ETX occurs later in the same chunk. -/
theorem C4_counterexample :
    Unframer.pushBytes false [2, 65, 2, 66, 3]
        = (false, [UEmit.newFrameBytes [65, 2, 66], UEmit.frameComplete], 5) ∧
    countCompletes (Unframer.pushBytes false [2, 65, 2, 66, 3]).2.1
        ≠ specCountU false [2, 65, 2, 66, 3] := by
  constructor
  · decide
  · decide

/-- Claim C4 (amended): the restart-on-STX rule holds for a `pushBytes` call
whose chunk contains no ETX: the frame is completed at the first STX of the
chunk and that STX starts a new frame; consequently, when the stream is fed
byte at a time, the number of `onFrameComplete` emissions equals the number of
ETX markers observed while in-sync plus the number of mid-frame STX
restarts. -/
theorem C4_restart_and_count (buf : List Nat) (s : Nat) (B : List Nat)
    (hnoetx : memchr ETX buf = none) (hstx : memchr STX buf = some s) :
    (Unframer.pushBytes true buf =
       ((Unframer.pushBytes true (buf.drop (s + 1))).1,
        processIncomingFrameBytes (buf.take s) ++ UEmit.frameComplete ::
          (Unframer.pushBytes true (buf.drop (s + 1))).2.1,
        s + (1 + (Unframer.pushBytes true (buf.drop (s + 1))).2.2))) ∧
    countCompletes (Unframer.pushChunks false (B.map (fun b => [b]))).2
        = specCountU false B := by
  constructor
  · have hs := memchr_lt_length hstx
    have hlen : ¬ buf.length = 0 := by omega
    rw [unframer_pushBytes_eq]
    unfold unframerPushBody
    simp only [hlen, if_false, Bool.true_eq_false, reduceIte, hnoetx, hstx]
    rw [show buf.drop s = STX :: buf.drop (s + 1) from memchr_drop hstx,
        pushBytes_stx_head]
  · exact (pushBytes_single_completes B false).1

/-- Claim C4 (witness for the amended statement): a concrete in-frame chunk
with a mid-frame STX and no ETX, plus a concrete byte-at-a-time stream. -/
theorem C4_witness :
    memchr ETX [65, 2, 66] = none ∧ memchr STX [65, 2, 66] = some 1 ∧
    (Unframer.pushBytes true [65, 2, 66] =
       ((Unframer.pushBytes true ([65, 2, 66].drop 2)).1,
        processIncomingFrameBytes ([65, 2, 66].take 1) ++ UEmit.frameComplete ::
          (Unframer.pushBytes true ([65, 2, 66].drop 2)).2.1,
        1 + (1 + (Unframer.pushBytes true ([65, 2, 66].drop 2)).2.2)) ∧
     countCompletes (Unframer.pushChunks false
         (([2, 65, 2, 66, 3] : List Nat).map (fun b => [b]))).2
        = specCountU false [2, 65, 2, 66, 3]) :=
  ⟨by decide, by decide,
   C4_restart_and_count [65, 2, 66] 1 [2, 65, 2, 66, 3] (by decide) (by decide)⟩

theorem renderU_glue (f1 : List (List Nat)) (p1 : List Nat)
    (f2 : List (List Nat)) (p2 : List Nat) :
    renderU f1 p1 ++ renderU f2 p2 =
      match f2 with
      | [] => renderU f1 (p1 ++ p2)
      | f0 :: r => renderU (f1 ++ (p1 ++ f0) :: r) p2 := by
  cases f2 with
  | nil => simp [renderU]
  | cons f0 r => simp [renderU]

/-- A run of `pushBytes` from any sync state admits a frame decomposition of
its input whose rendering is exactly the flattened emission stream. -/
theorem unframer_decomp :
    ∀ (n : Nat) (sync : Bool) (buf : List Nat),
      2 * buf.length + 1 ≤ n →
      ∃ frames pend, UDec sync buf frames pend ∧
        flattenU (Unframer.pushBytes sync buf).2.1 = renderU frames pend := by
  intro n
  induction n with
  | zero =>
    intro sync buf hn
    have hlen0 : buf.length = 0 := by omega
    have hbuf : buf = [] := List.length_eq_zero.1 hlen0
    subst hbuf
    cases sync with
    | false =>
      refine ⟨[], [], UDec.outNoStx [] (by simp), ?_⟩
      rw [unframer_pushBytes_eq]
      simp [unframerPushBody, flattenU, renderU]
    | true =>
      refine ⟨[], [], UDec.inOpen [] (by simp), ?_⟩
      rw [unframer_pushBytes_eq]
      simp [unframerPushBody, flattenU, renderU]
  | succ n ih =>
    intro sync buf hn
    by_cases h0 : buf.length = 0
    · have hbuf : buf = [] := List.length_eq_zero.1 h0
      subst hbuf
      cases sync with
      | false =>
        refine ⟨[], [], UDec.outNoStx [] (by simp), ?_⟩
        rw [unframer_pushBytes_eq]
        simp [unframerPushBody, flattenU, renderU]
      | true =>
        refine ⟨[], [], UDec.inOpen [] (by simp), ?_⟩
        rw [unframer_pushBytes_eq]
        simp [unframerPushBody, flattenU, renderU]
    · rw [unframer_pushBytes_eq]
      unfold unframerPushBody
      cases sync with
      | false =>
        simp only [h0, if_false, reduceIte]
        split
        · next k heq =>
          have hk := memchr_lt_length heq
          have hdec := take_append_drop_memchr heq
          have htk := memchr_take heq
          obtain ⟨fr, pd, hUD, hflat⟩ := ih true (buf.drop (k + 1)) (by simp; omega)
          refine ⟨fr, pd, ?_, ?_⟩
          · rw [hdec]
            exact UDec.outEnter _ _ _ _ htk hUD
          · exact hflat
        · next heq =>
          refine ⟨[], [], UDec.outNoStx buf (memchr_none_iff.1 heq), ?_⟩
          simp [flattenU, renderU]
      | true =>
        simp only [h0, if_false, Bool.true_eq_false, reduceIte]
        split
        · next e heq =>
          have he := memchr_lt_length heq
          have hdec := take_append_drop_memchr heq
          have htk := memchr_take heq
          obtain ⟨fr, pd, hUD, hflat⟩ := ih false (buf.drop (e + 1)) (by simp; omega)
          refine ⟨buf.take e :: fr, pd, ?_, ?_⟩
          · have hc : UDec true (buf.take e ++ ETX :: buf.drop (e + 1))
                (buf.take e :: fr) pd := UDec.inEtx _ _ _ _ htk hUD
            rw [← hdec] at hc
            exact hc
          · rw [flattenU_append, flattenU_processIncomingFrameBytes]
            simp [flattenU, renderU, hflat]
        · next heqE =>
          split
          · next s heqS =>
            have hs := memchr_lt_length heqS
            have hdec := take_append_drop_memchr heqS
            have htkS := memchr_take heqS
            have htkE : ∀ b ∈ buf.take s, b ≠ ETX :=
              fun b hb => memchr_none_iff.1 heqE b (List.take_subset _ _ hb)
            obtain ⟨fr, pd, hUD, hflat⟩ := ih true (buf.drop (s + 1)) (by simp; omega)
            refine ⟨buf.take s :: fr, pd, ?_, ?_⟩
            · have hc : UDec true (buf.take s ++ STX :: buf.drop (s + 1))
                  (buf.take s :: fr) pd :=
                UDec.inRestart _ _ _ _ (fun b hb => ⟨htkE b hb, htkS b hb⟩) hUD
              rw [← hdec] at hc
              exact hc
            · rw [show buf.drop s = STX :: buf.drop (s + 1) from memchr_drop heqS,
                  pushBytes_stx_head]
              rw [flattenU_append, flattenU_processIncomingFrameBytes]
              simp [flattenU, renderU, hflat]
          · next heqS =>
            have hallE := memchr_none_iff.1 heqE
            have hallS := memchr_none_iff.1 heqS
            refine ⟨[], buf, UDec.inOpen buf (fun b hb => ⟨hallE b hb, hallS b hb⟩), ?_⟩
            simp [flattenU_processIncomingFrameBytes, renderU]

/-- Shape of the flattened emissions of any chunked run: a sequence of
completed-frame segments (payload bytes then the completion) followed by the
pending frame's bytes.  No byte of a later frame is emitted before the
previous frame's completion. -/
theorem unframer_chunked_shape :
    ∀ (chunks : List (List Nat)) (sync : Bool),
      ∃ frames pend,
        flattenU (Unframer.pushChunks sync chunks).2 = renderU frames pend := by
  intro chunks
  induction chunks with
  | nil => intro sync; exact ⟨[], [], by simp [Unframer.pushChunks, flattenU, renderU]⟩
  | cons c cs ih =>
    intro sync
    obtain ⟨f1, p1, h1⟩ := unframer_decomp (2 * c.length + 1) sync c le_rfl
    obtain ⟨f2, p2, h2⟩ := ih (Unframer.pushBytes sync c).1
    simp only [Unframer.pushChunks, flattenU_append, h1, h2, renderU_glue]
    cases f2 with
    | nil => exact ⟨f1, p1 ++ p2, rfl⟩
    | cons f0 r => exact ⟨f1 ++ (p1 ++ f0) :: r, p2, rfl⟩

/-- Claim C5: for every input stream, the emissions of a single `pushBytes`
run are, after flattening, exactly the rendering of a frame decomposition of
the input: payload bytes appear in stream order, every payload byte of a frame
precedes that frame's `onFrameComplete`, no byte of the next frame precedes
the previous completion, and the bytes of each completed frame are exactly the
bytes strictly between its STX and its terminating marker (ETX, or the STX
that restarts).  Moreover any chunked run's flattened emissions have the same
completed-frames-then-pending shape. -/
theorem C5_ordering (buf : List Nat) (chunks : List (List Nat)) :
    (∃ frames pend, UDec false buf frames pend ∧
       flattenU (Unframer.pushBytes false buf).2.1 = renderU frames pend) ∧
    (∃ frames pend,
       flattenU (Unframer.pushChunks false chunks).2 = renderU frames pend) :=
  ⟨unframer_decomp (2 * buf.length + 1) false buf le_rfl, unframer_chunked_shape chunks false⟩

theorem memchr_append_first {c : Nat} {l1 l2 : List Nat} (h : ∀ b ∈ l1, b ≠ c) :
    memchr c (l1 ++ c :: l2) = some l1.length := by
  induction l1 with
  | nil => simp [memchr]
  | cons b r ih =>
    have hb := h b (by simp)
    have ih2 := ih (fun x hx => h x (by simp [hx]))
    simp [memchr, hb, ih2]

/-- Claim C2: for every dataset buffer accepted past step 4 (length at least
5, and after marker/CRC stripping the trailing byte is a valid separator),
the view is `WrongCRC` exactly when `(sum of window & 0x3F) + 0x20` differs
from the checksum byte, where the window is the stripped core including the
trailing separator for the standard dialect (HT) and excluding it for the
historical dialect (SP); and on a CRC mismatch label and data are empty. -/
theorem C2_crc (bs : List Nat) (h5 : ¬ bs.length < 5)
    (hdelim : ((crcAndCore bs).2.getLast?).getD 0 = HT ∨
      ((crcAndCore bs).2.getLast?).getD 0 = SP) :
    ((DatasetView.ofBytes bs).decodedType = DatasetType.WrongCRC ↔
      DatasetView.computeCRC
          (if ((crcAndCore bs).2.getLast?).getD 0 = HT then (crcAndCore bs).2
           else (crcAndCore bs).2.dropLast) ≠ (crcAndCore bs).1) ∧
    (DatasetView.computeCRC
          (if ((crcAndCore bs).2.getLast?).getD 0 = HT then (crcAndCore bs).2
           else (crcAndCore bs).2.dropLast) ≠ (crcAndCore bs).1 →
      (DatasetView.ofBytes bs).label = [] ∧ (DatasetView.ofBytes bs).data = []) := by
  unfold DatasetView.ofBytes
  rw [if_neg h5]
  dsimp only
  rw [if_pos hdelim]
  by_cases hcrc : DatasetView.computeCRC
      (if ((crcAndCore bs).2.getLast?).getD 0 = HT then (crcAndCore bs).2
       else (crcAndCore bs).2.dropLast) ≠ (crcAndCore bs).1
  · rw [if_pos hcrc]
    simp [hcrc]
  · rw [if_neg hcrc]
    refine ⟨⟨?_, fun h => absurd h hcrc⟩, fun h => absurd h hcrc⟩
    intro habs
    exfalso
    revert habs
    split
    · simp
    · split
      · simp
      · split <;> split <;> simp

/-- Claim C2 (witness): the repository's own bad-CRC sample
`"ADSC\t012345678901\tJ"` decodes to `WrongCRC` with empty label and data. -/
theorem C2_witness :
    (DatasetView.ofBytes
        [65, 68, 83, 67, 9, 48, 49, 50, 51, 52, 53, 54, 55, 56, 57, 48, 49, 9, 74]).decodedType
      = DatasetType.WrongCRC ∧
    (DatasetView.ofBytes
        [65, 68, 83, 67, 9, 48, 49, 50, 51, 52, 53, 54, 55, 56, 57, 48, 49, 9, 74]).label = [] ∧
    (DatasetView.ofBytes
        [65, 68, 83, 67, 9, 48, 49, 50, 51, 52, 53, 54, 55, 56, 57, 48, 49, 9, 74]).data = [] :=
  ⟨(C2_crc _ (by decide) (by decide)).1.2 (by decide),
   ((C2_crc _ (by decide) (by decide)).2 (by decide)).1,
   ((C2_crc _ (by decide) (by decide)).2 (by decide)).2⟩

theorem take_append_cons {α : Type} (l1 : List α) (a : α) (l2 : List α) :
    (l1 ++ a :: l2).take l1.length = l1 := by
  induction l1 with
  | nil => simp
  | cons b r ih => simp [ih]

theorem drop_append_cons {α : Type} (l1 : List α) (a : α) (l2 : List α) :
    (l1 ++ a :: l2).drop (l1.length + 1) = l2 := by
  induction l1 with
  | nil => simp
  | cons b r ih => simp [ih]

/-- Claim C3: for every dataset buffer that passes the CRC check, the
remaining bytes split as the claim states: the label is the bytes before the
first delimiter; no delimiter, or nothing after the first delimiter, gives
`Malformed` with empty label and data; when a second delimiter occurs, the
bytes between the delimiters are parsed as the horodate and the data is the
(possibly empty) bytes after it; otherwise everything after the first
delimiter is the data and there is no horodate; the type is `ValidStandard`
or `ValidHistorical` per dialect. -/
theorem C3_split (bs core payload : List Nat) (crc delim : Nat)
    (h5 : ¬ bs.length < 5)
    (hcore : crcAndCore bs = (crc, core))
    (hdelim : (core.getLast?).getD 0 = delim)
    (hd : delim = HT ∨ delim = SP)
    (hpayload : payload = core.dropLast)
    (hcrc : DatasetView.computeCRC (if delim = HT then core else core.dropLast) = crc) :
    ((∀ b ∈ payload, b ≠ delim) →
       DatasetView.ofBytes bs = ⟨DatasetType.Malformed, [], [], Horodate.init⟩) ∧
    (∀ lab rest, payload = lab ++ delim :: rest → (∀ b ∈ lab, b ≠ delim) →
       ((rest = [] →
           DatasetView.ofBytes bs = ⟨DatasetType.Malformed, [], [], Horodate.init⟩) ∧
        ((∀ b ∈ rest, b ≠ delim) → rest ≠ [] →
           DatasetView.ofBytes bs =
             ⟨if delim = HT then DatasetType.ValidStandard else DatasetType.ValidHistorical,
              lab, rest, Horodate.init⟩) ∧
        (∀ hor dat, rest = hor ++ delim :: dat → (∀ b ∈ hor, b ≠ delim) →
           DatasetView.ofBytes bs =
             ⟨if delim = HT then DatasetType.ValidStandard else DatasetType.ValidHistorical,
              lab, dat, Horodate.fromLabelBytes hor⟩))) := by
  have hof : DatasetView.ofBytes bs =
      (match memchr delim payload with
       | none => ⟨DatasetType.Malformed, [], [], Horodate.init⟩
       | some i =>
         if payload.length ≤ i + 1 then ⟨DatasetType.Malformed, [], [], Horodate.init⟩
         else
           match memchr delim (payload.drop (i + 1)) with
           | none =>
             ⟨if delim = HT then DatasetType.ValidStandard else DatasetType.ValidHistorical,
              payload.take i, payload.drop (i + 1), Horodate.init⟩
           | some j =>
             ⟨if delim = HT then DatasetType.ValidStandard else DatasetType.ValidHistorical,
              payload.take i, (payload.drop (i + 1)).drop (j + 1),
              Horodate.fromLabelBytes ((payload.drop (i + 1)).take j)⟩) := by
    unfold DatasetView.ofBytes
    rw [if_neg h5]
    dsimp only
    rw [hcore]
    dsimp only
    rw [hdelim, if_pos hd, if_neg (fun hh => hh hcrc), ← hpayload]
  constructor
  · intro hnone
    rw [hof, memchr_none_iff.2 hnone]
  · intro lab rest hsplit hlab
    have hm : memchr delim payload = some lab.length := by
      rw [hsplit]; exact memchr_append_first hlab
    have hplen : payload.length = lab.length + rest.length + 1 := by
      rw [hsplit]; simp; omega
    have htake : payload.take lab.length = lab := by
      rw [hsplit]; exact take_append_cons _ _ _
    have hdrop : payload.drop (lab.length + 1) = rest := by
      rw [hsplit]; exact drop_append_cons _ _ _
    refine ⟨?_, ?_, ?_⟩
    · intro hrest
      subst hrest
      rw [hof, hm]
      dsimp only
      rw [if_pos (by simp at hplen; omega)]
    · intro hnorest hne
      have hlt : ¬ payload.length ≤ lab.length + 1 := by
        have : rest.length ≠ 0 := fun hh => hne (List.length_eq_zero.1 hh)
        omega
      rw [hof, hm]
      dsimp only
      rw [if_neg hlt, hdrop, memchr_none_iff.2 hnorest, htake]
    · intro hor dat hsplit2 hhor
      have hm2 : memchr delim rest = some hor.length := by
        rw [hsplit2]; exact memchr_append_first hhor
      have hlt : ¬ payload.length ≤ lab.length + 1 := by
        rw [hsplit2] at hplen; simp at hplen; omega
      rw [hof, hm]
      dsimp only
      rw [if_neg hlt, hdrop, hm2]
      dsimp only
      rw [htake, hsplit2, take_append_cons, drop_append_cons]

/-- Claim C3 (witness): the repository's sample `"DATE\tH101112010203\t\t-"`
splits into label `DATE`, a parsed horodate and empty data, `ValidStandard`. -/
theorem C3_witness :
    DatasetView.ofBytes
        [68, 65, 84, 69, 9, 72, 49, 48, 49, 49, 49, 50, 48, 49, 48, 50, 48, 51, 9, 9, 45] =
      ⟨DatasetType.ValidStandard, [68, 65, 84, 69], [],
       Horodate.fromLabelBytes [72, 49, 48, 49, 49, 49, 50, 48, 49, 48, 50, 48, 51]⟩ :=
  ((((C3_split
      [68, 65, 84, 69, 9, 72, 49, 48, 49, 49, 49, 50, 48, 49, 48, 50, 48, 51, 9, 9, 45]
      [68, 65, 84, 69, 9, 72, 49, 48, 49, 49, 49, 50, 48, 49, 48, 50, 48, 51, 9, 9]
      [68, 65, 84, 69, 9, 72, 49, 48, 49, 49, 49, 50, 48, 49, 48, 50, 48, 51, 9]
      45 9 (by decide) (by decide) (by decide) (by decide) (by decide) (by decide)).2
    [68, 65, 84, 69] [72, 49, 48, 49, 49, 49, 50, 48, 49, 48, 50, 48, 51, 9]
    (by decide) (by decide)).2.2)
    [72, 49, 48, 49, 49, 49, 50, 48, 49, 48, 50, 48, 51] [] (by decide) (by decide))

theorem decimalValue_from_ge (bs : List Nat) :
    ∀ a : Nat, a ≤ bs.foldl (fun a d => 10 * a + (d - 48)) a := by
  induction bs with
  | nil => intro a; simp
  | cons d r ih =>
    intro a
    calc a ≤ 10 * a + (d - 48) := by omega
    _ ≤ r.foldl (fun a d => 10 * a + (d - 48)) (10 * a + (d - 48)) := ih _

theorem uint32Loop_digits (bs : List Nat) :
    ∀ a : Nat, a ≤ 4294967295 → (∀ b ∈ bs, isDigit b = true) →
      uint32Loop a bs = min (bs.foldl (fun a d => 10 * a + (d - 48)) a) 4294967295 := by
  induction bs with
  | nil => intro a ha _; simp [uint32Loop]; omega
  | cons d r ih =>
    intro a ha hdig
    have hd : isDigit d = true := hdig d (by simp)
    have hd' : 48 ≤ d ∧ d ≤ 57 := by simpa [isDigit] using hd
    rw [uint32Loop]
    rw [if_neg (by omega)]
    by_cases hbig : 4294967295 / 10 < a
    · rw [if_pos hbig]
      have : 4294967296 ≤ 10 * a + (d - 48) := by omega
      have hge := decimalValue_from_ge r (10 * a + (d - 48))
      simp only [List.foldl_cons]
      omega
    · rw [if_neg hbig]
      have h10 : (a * 10) % 4294967296 = a * 10 := Nat.mod_eq_of_lt (by omega)
      simp only [h10]
      by_cases hov : 4294967295 - (d - 48) < a * 10
      · rw [if_pos hov]
        have : 4294967296 ≤ 10 * a + (d - 48) := by omega
        have hge := decimalValue_from_ge r (10 * a + (d - 48))
        simp only [List.foldl_cons]
        omega
      · rw [if_neg hov]
        have hsum : (a * 10 + (d - 48)) % 4294967296 = a * 10 + (d - 48) :=
          Nat.mod_eq_of_lt (by omega)
        rw [hsum]
        have := ih (a * 10 + (d - 48)) (by omega) (fun b hb => hdig b (by simp [hb]))
        simp only [List.foldl_cons]
        rw [show 10 * a + (d - 48) = a * 10 + (d - 48) by omega]
        exact this

theorem uint32Loop_nondigit (bs : List Nat) :
    ∀ a : Nat, (∃ b ∈ bs, isDigit b = false) → uint32Loop a bs = 4294967295 := by
  induction bs with
  | nil => intro a h; simp at h
  | cons d r ih =>
    intro a h
    rw [uint32Loop]
    by_cases hd : d < 48 ∨ 57 < d
    · rw [if_pos hd]
    · rw [if_neg hd]
      have hrest : ∃ b ∈ r, isDigit b = false := by
        rcases h with ⟨b, hb, hbd⟩
        rcases List.mem_cons.1 hb with rfl | hb
        · exfalso; simp [isDigit] at hbd; omega
        · exact ⟨b, hb, hbd⟩
      by_cases hbig : 4294967295 / 10 < a
      · rw [if_pos hbig]
      · rw [if_neg hbig]
        by_cases hov : 4294967295 - (d - 48) < (a * 10) % 4294967296
        · rw [if_pos hov]
        · rw [if_neg hov]
          exact ih _ hrest

/-- Claim C6: over a pure ASCII-decimal buffer whose value is at most
4294967294, `uint32FromValueBuffer` returns the numeric value; over a pure
digit buffer whose value is 4294967295 or larger (hence in particular the
string `"4294967295"`), and over any buffer containing a non-digit byte, it
returns the sentinel `u32::MAX = 4294967295`; the guards fire before the
`uint32_t` arithmetic can wrap, so every intermediate stays below `2^32`. -/
theorem C6_uint32 (bs : List Nat) :
    ((∀ b ∈ bs, isDigit b = true) → decimalValue bs ≤ 4294967294 →
       DatasetView.uint32FromValueBuffer bs = decimalValue bs) ∧
    ((∀ b ∈ bs, isDigit b = true) → 4294967295 ≤ decimalValue bs →
       DatasetView.uint32FromValueBuffer bs = 4294967295) ∧
    ((∃ b ∈ bs, isDigit b = false) →
       DatasetView.uint32FromValueBuffer bs = 4294967295) := by
  refine ⟨?_, ?_, ?_⟩
  · intro hdig hle
    unfold DatasetView.uint32FromValueBuffer
    rw [uint32Loop_digits bs 0 (by omega) hdig]
    unfold decimalValue at hle ⊢
    omega
  · intro hdig hge
    unfold DatasetView.uint32FromValueBuffer
    rw [uint32Loop_digits bs 0 (by omega) hdig]
    unfold decimalValue at hge
    omega
  · intro hnd
    exact uint32Loop_nondigit bs 0 hnd

/-- Claim C6 (witness): `"4294967295"` maps to the sentinel while
`"4294967294"` maps to its numeric value. -/
theorem C6_witness :
    DatasetView.uint32FromValueBuffer [52, 50, 57, 52, 57, 54, 55, 50, 57, 53] = 4294967295 ∧
    DatasetView.uint32FromValueBuffer [52, 50, 57, 52, 57, 54, 55, 50, 57, 52] = 4294967294 :=
  ⟨(C6_uint32 _).2.1 (by decide) (by decide),
   (C6_uint32 _).1 (by decide) (by decide)⟩

theorem isDigit_iff {b : Nat} : isDigit b = true ↔ 48 ≤ b ∧ b ≤ 57 := by
  simp [isDigit]

theorem range'_all_iff (p : Nat → Bool) :
    (List.range' 1 12).all p = true ↔ ∀ i, 1 ≤ i → i ≤ 12 → p i = true := by
  rw [List.all_eq_true]
  constructor
  · intro h i h1 h2
    apply h
    rw [List.mem_range'_1]
    omega
  · intro h i hi
    rw [List.mem_range'_1] at hi
    exact h i hi.1 (by omega)

/-- Claim C7: `Horodate.fromLabelBytes` yields `isValid = true` exactly when
the buffer has length 13, byte 0 is one of `H h E e` or space, bytes 1..12
are ASCII digits, and month/day/hour/minute/second are in range (month 1..12,
day 1..31, hour at most 24, minute and second below 60); moreover whenever the
length and digit checks pass, the numeric fields hold the parsed values even
if a range check failed. -/
theorem C7_horodate (bs : List Nat) :
    ((Horodate.fromLabelBytes bs).isValid = true ↔
      (bs.length = 13 ∧
       (byteAt bs 0 = 72 ∨ byteAt bs 0 = 104 ∨ byteAt bs 0 = 69 ∨
        byteAt bs 0 = 101 ∨ byteAt bs 0 = 32) ∧
       (∀ i, 1 ≤ i → i ≤ 12 → isDigit (byteAt bs i) = true) ∧
       (1 ≤ (byteAt bs 3 - 48) * 10 + (byteAt bs 4 - 48) ∧
        (byteAt bs 3 - 48) * 10 + (byteAt bs 4 - 48) ≤ 12) ∧
       (1 ≤ (byteAt bs 5 - 48) * 10 + (byteAt bs 6 - 48) ∧
        (byteAt bs 5 - 48) * 10 + (byteAt bs 6 - 48) ≤ 31) ∧
       (byteAt bs 7 - 48) * 10 + (byteAt bs 8 - 48) ≤ 24 ∧
       (byteAt bs 9 - 48) * 10 + (byteAt bs 10 - 48) < 60 ∧
       (byteAt bs 11 - 48) * 10 + (byteAt bs 12 - 48) < 60)) ∧
    (bs.length = 13 → (∀ i, 1 ≤ i → i ≤ 12 → isDigit (byteAt bs i) = true) →
      ((Horodate.fromLabelBytes bs).year
          = 2000 + (byteAt bs 1 - 48) * 10 + (byteAt bs 2 - 48) ∧
       (Horodate.fromLabelBytes bs).month = (byteAt bs 3 - 48) * 10 + (byteAt bs 4 - 48) ∧
       (Horodate.fromLabelBytes bs).day = (byteAt bs 5 - 48) * 10 + (byteAt bs 6 - 48) ∧
       (Horodate.fromLabelBytes bs).hour = (byteAt bs 7 - 48) * 10 + (byteAt bs 8 - 48) ∧
       (Horodate.fromLabelBytes bs).minute = (byteAt bs 9 - 48) * 10 + (byteAt bs 10 - 48) ∧
       (Horodate.fromLabelBytes bs).second
          = (byteAt bs 11 - 48) * 10 + (byteAt bs 12 - 48))) := by
  by_cases hlen : bs.length = 13
  · unfold Horodate.fromLabelBytes
    rw [if_neg (by omega)]
    dsimp only
    by_cases hdig : (List.range' 1 12).all (fun i => isDigit (byteAt bs i)) = true
    · rw [if_neg (by simp [hdig])]
      have hdig' := (range'_all_iff _).1 hdig
      have d3 := isDigit_iff.1 (hdig' 3 (by omega) (by omega))
      have d4 := isDigit_iff.1 (hdig' 4 (by omega) (by omega))
      have d5 := isDigit_iff.1 (hdig' 5 (by omega) (by omega))
      have d6 := isDigit_iff.1 (hdig' 6 (by omega) (by omega))
      have d7 := isDigit_iff.1 (hdig' 7 (by omega) (by omega))
      have d8 := isDigit_iff.1 (hdig' 8 (by omega) (by omega))
      have d9 := isDigit_iff.1 (hdig' 9 (by omega) (by omega))
      have d10 := isDigit_iff.1 (hdig' 10 (by omega) (by omega))
      have d11 := isDigit_iff.1 (hdig' 11 (by omega) (by omega))
      have d12 := isDigit_iff.1 (hdig' 12 (by omega) (by omega))
      constructor
      · by_cases h0 : byteAt bs 0 = 72 <;>
          by_cases h1 : byteAt bs 0 = 104 <;>
          by_cases h2 : byteAt bs 0 = 69 <;>
          by_cases h3 : byteAt bs 0 = 101 <;>
          by_cases h4 : byteAt bs 0 = 32 <;>
          simp only [h0, h1, h2, h3, h4, if_pos, if_neg, if_true, if_false, reduceIte,
            Horodate.init, hlen, Bool.and_eq_true, Bool.not_eq_true',
            decide_eq_false_iff_not, not_or, not_lt, true_and] <;>
          simp [hdig', hlen, h0, h1, h2, h3, h4] <;>
          first
          | omega
          | exact ⟨fun hL => ⟨hdig', by omega⟩, fun hR => by obtain ⟨hA, hB⟩ := hR; omega⟩
      · intro _ _
        by_cases h0 : byteAt bs 0 = 72 <;>
          by_cases h1 : byteAt bs 0 = 104 <;>
          by_cases h2 : byteAt bs 0 = 69 <;>
          by_cases h3 : byteAt bs 0 = 101 <;>
          by_cases h4 : byteAt bs 0 = 32 <;>
          simp [h0, h1, h2, h3, h4, Horodate.init]
    · rw [if_pos (by simp [hdig])]
      have hnd : ¬ ∀ i, 1 ≤ i → i ≤ 12 → isDigit (byteAt bs i) = true :=
        fun hh => hdig ((range'_all_iff _).2 hh)
      constructor
      · simp [hnd]
      · intro _ hh
        exact absurd hh hnd
  · unfold Horodate.fromLabelBytes
    rw [if_pos (by omega)]
    constructor
    · simp [Horodate.init, hlen]
    · intro hh
      exact absurd hh hlen

/-- Claim C7 (witness): the repository's valid sample `H101112010203` parses
valid; its month field holds the parsed value 11. -/
theorem C7_witness :
    (Horodate.fromLabelBytes [72, 49, 48, 49, 49, 49, 50, 48, 49, 48, 50, 48, 51]).isValid
        = true ∧
    (Horodate.fromLabelBytes [72, 49, 48, 49, 49, 49, 50, 48, 49, 48, 50, 48, 51]).month = 11 :=
  ⟨(C7_horodate _).1.2 (by decide),
   ((C7_horodate _).2 (by decide) (by decide)).2.1.trans (by decide)⟩

/-- Claim C8: pushing, while inside a dataset whose buffer already holds
`cur`, a chunk of marker-free bytes followed by the end-of-dataset marker CR,
where the bytes would exceed the 128-byte capacity: the excess is silently
dropped, `pushBytes` returns fewer bytes than the chunk length, and
`onDatasetExtracted` still fires exactly once, with the truncated payload. -/
theorem C8_overflow (cur bs : List Nat) (hcur : cur.length ≤ MAX_DATASET_SIZE)
    (hover : MAX_DATASET_SIZE < cur.length + bs.length)
    (hnoend : ∀ b ∈ bs, b ≠ END_MARKER_TIC_1 ∧ b ≠ END_MARKER_TIC_2) :
    DatasetExtractor.pushBytes true cur (bs ++ [CR]) =
      ((false, []), [cur ++ bs.take (MAX_DATASET_SIZE - cur.length)],
       (MAX_DATASET_SIZE - cur.length) + 1) ∧
    (MAX_DATASET_SIZE - cur.length) + 1 < (bs ++ [CR]).length := by
  have hm1 : memchr END_MARKER_TIC_1 (bs ++ [CR]) = some bs.length := by
    have : (CR : Nat) = END_MARKER_TIC_1 := rfl
    rw [show bs ++ [CR] = bs ++ END_MARKER_TIC_1 :: [] from by rw [← this]]
    exact memchr_append_first (fun b hb => (hnoend b hb).1)
  have hlen : ¬ (bs ++ [CR]).length = 0 := by simp
  constructor
  · rw [datasetExtractor_pushBytes_eq]
    unfold datasetExtractorPushBody
    simp only [hlen, if_false, Bool.true_eq_false, reduceIte, hm1]
    rw [show (bs ++ [CR]).take bs.length = bs from take_append_cons bs CR []]
    rw [show (bs ++ [CR]).drop (bs.length + 1) = [] from drop_append_cons bs CR []]
    rw [show DatasetExtractor.pushBytes false [] [] = ((false, []), [], 0) from rfl]
    simp only [processIncomingDatasetBytes]
    rw [show min bs.length (MAX_DATASET_SIZE - cur.length)
          = MAX_DATASET_SIZE - cur.length from by unfold MAX_DATASET_SIZE at *; omega]
    simp
  · simp only [List.length_append, List.length_cons, List.length_nil]
    unfold MAX_DATASET_SIZE at *
    omega

/-- Claim C8 (witness): a dataset buffer already holding 120 bytes, fed 20
payload bytes and CR: 8 bytes are accepted, the rest dropped; the callback
fires once with the 128-byte truncated payload; the return value 9 is short
of the 21-byte chunk. -/
theorem C8_witness :
    (List.replicate 120 65 : List Nat).length ≤ MAX_DATASET_SIZE ∧
    MAX_DATASET_SIZE <
      (List.replicate 120 65 : List Nat).length + (List.replicate 20 66 : List Nat).length ∧
    (DatasetExtractor.pushBytes true (List.replicate 120 65)
        (List.replicate 20 66 ++ [CR]) =
      ((false, []),
       [List.replicate 120 65 ++
          (List.replicate 20 66 : List Nat).take
            (MAX_DATASET_SIZE - (List.replicate 120 65 : List Nat).length)],
       (MAX_DATASET_SIZE - (List.replicate 120 65 : List Nat).length) + 1) ∧
     (MAX_DATASET_SIZE - (List.replicate 120 65 : List Nat).length) + 1
        < (List.replicate 20 66 ++ [CR] : List Nat).length) :=
  ⟨by decide, by decide,
   C8_overflow (List.replicate 120 65) (List.replicate 20 66)
     (by decide) (by decide) (by decide)⟩

theorem getD_set_self (l : List Nat) (n : Nat) (a : Nat) (h : n < l.length) :
    (l.set n a).getD n 0 = a := by
  induction l generalizing n with
  | nil => simp at h
  | cons b r ih =>
    cases n with
    | zero => simp
    | succ m => simpa using ih m (by simpa using h)

theorem getD_set_ne (l : List Nat) (m n : Nat) (a : Nat) (h : m ≠ n) :
    (l.set m a).getD n 0 = l.getD n 0 := by
  induction l generalizing m n with
  | nil => simp
  | cons b r ih =>
    cases m with
    | zero =>
      cases n with
      | zero => exact absurd rfl h
      | succ k => simp
    | succ m' =>
      cases n with
      | zero => simp
      | succ k => simpa using ih m' k (by omega)

theorem getD_append_self (xs : List Nat) (x : Nat) :
    (xs ++ [x]).getD xs.length 0 = x := by
  induction xs with
  | nil => simp
  | cons b r ih => simp [ih]

theorem getD_append_lt (xs ys : List Nat) (n : Nat) (h : n < xs.length) :
    (xs ++ ys).getD n 0 = xs.getD n 0 := by
  induction xs generalizing n with
  | nil => simp at h
  | cons b r ih =>
    cases n with
    | zero => simp
    | succ m => simpa using ih m (by simpa using h)

theorem getD_drop (l : List Nat) (m n : Nat) :
    (l.drop m).getD n 0 = l.getD (m + n) 0 := by
  induction l generalizing m with
  | nil => simp
  | cons b r ih =>
    cases m with
    | zero => simp
    | succ k => simp [Nat.succ_add, ih k]

theorem map_getD_range (l : List Nat) :
    (List.range l.length).map (fun i => l.getD i 0) = l := by
  induction l with
  | nil => simp
  | cons b r ih =>
    rw [List.length_cons, List.range_succ_eq_map]
    simp only [List.map_cons, List.map_map, List.getD_cons_zero]
    rw [show ((fun i => (b :: r).getD i 0) ∘ Nat.succ) = fun i => r.getD i 0 from
      funext fun i => by simp [List.getD_cons_succ]]
    rw [ih]

theorem ring_invariant (xs : List Nat) :
    (xs.foldl recordFrameSize FixedSizeRingBuffer.empty).buffer.length = 128 ∧
    (xs.foldl recordFrameSize FixedSizeRingBuffer.empty).writeIdx = xs.length % 128 ∧
    (xs.foldl recordFrameSize FixedSizeRingBuffer.empty).count = min xs.length 128 ∧
    ∀ i < (xs.foldl recordFrameSize FixedSizeRingBuffer.empty).count,
      (xs.foldl recordFrameSize FixedSizeRingBuffer.empty).buffer.getD
          (((xs.foldl recordFrameSize FixedSizeRingBuffer.empty).writeIdx + 128 -
              (xs.foldl recordFrameSize FixedSizeRingBuffer.empty).count + i) % 128) 0
        = xs.getD (xs.length - (xs.foldl recordFrameSize FixedSizeRingBuffer.empty).count + i) 0 := by
  induction xs using List.reverseRecOn with
  | nil => simp [FixedSizeRingBuffer.empty]
  | append_singleton xs x ih =>
    obtain ⟨hbl, hwr, hcnt, hidx⟩ := ih
    rw [List.foldl_append, List.foldl_cons, List.foldl_nil]
    set r := xs.foldl recordFrameSize FixedSizeRingBuffer.empty with hr
    have hwrlt : r.writeIdx < 128 := by omega
    refine ⟨by simp [recordFrameSize, hbl], ?_, ?_, ?_⟩
    · simp only [recordFrameSize]
      rw [hwr]
      simp only [List.length_append, List.length_singleton]
      omega
    · simp only [recordFrameSize]
      rw [hcnt]
      simp only [List.length_append, List.length_singleton]
      omega
    · intro i hi
      simp only [recordFrameSize] at hi ⊢
      rw [hcnt] at hi
      by_cases hlast : i + 1 = min (r.count + 1) 128
      · have hidx1 : (((r.writeIdx + 1) % 128) + 128 - min (r.count + 1) 128 + i) % 128
            = r.writeIdx := by omega
        have hix : xs.length + 1 - min (r.count + 1) 128 + i = xs.length := by omega
        rw [hidx1, getD_set_self _ _ _ (by omega)]
        simp only [List.length_append, List.length_singleton]
        rw [hix]
        exact (getD_append_self xs x).symm
      · have hj : ∃ j, j < r.count ∧
            (((r.writeIdx + 1) % 128) + 128 - min (r.count + 1) 128 + i) % 128
              = (r.writeIdx + 128 - r.count + j) % 128 ∧
            xs.length + 1 - min (r.count + 1) 128 + i = xs.length - r.count + j ∧
            xs.length - r.count + j < xs.length := by
          refine ⟨i + 1 + r.count - min (r.count + 1) 128, ?_, ?_, ?_, ?_⟩ <;> omega
        obtain ⟨j, hjlt, hja, hjb, hjc⟩ := hj
        have hne : r.writeIdx ≠
            (((r.writeIdx + 1) % 128) + 128 - min (r.count + 1) 128 + i) % 128 := by omega
        rw [getD_set_ne _ _ _ _ hne, hja, hidx j hjlt]
        simp only [List.length_append, List.length_singleton]
        rw [hjb]
        exact (getD_append_lt xs [x] _ hjc).symm

theorem ring_max (xs : List Nat) :
    Unframer.getMaxFrameSizeFromRecentHistory
        (xs.foldl recordFrameSize FixedSizeRingBuffer.empty)
      = ((xs.drop (xs.length - 128)).map id).foldr max 0 := by
  obtain ⟨hbl, hwr, hcnt, hidx⟩ := ring_invariant xs
  unfold Unframer.getMaxFrameSizeFromRecentHistory
  have hmap : (List.range (xs.foldl recordFrameSize FixedSizeRingBuffer.empty).count).map
      (fun i => (xs.foldl recordFrameSize FixedSizeRingBuffer.empty).buffer.getD
        (((xs.foldl recordFrameSize FixedSizeRingBuffer.empty).writeIdx + 128 -
            (xs.foldl recordFrameSize FixedSizeRingBuffer.empty).count + i) % 128) 0)
      = (List.range (xs.foldl recordFrameSize FixedSizeRingBuffer.empty).count).map
          (fun i => (xs.drop (xs.length - 128)).getD i 0) := by
    apply List.map_congr_left
    intro i hi
    rw [List.mem_range] at hi
    rw [hidx i hi, getD_drop]
    have harith : xs.length -
        (xs.foldl recordFrameSize FixedSizeRingBuffer.empty).count + i
        = xs.length - 128 + i := by omega
    rw [harith]
  rw [hmap]
  have hlen : (xs.drop (xs.length - 128)).length
      = (xs.foldl recordFrameSize FixedSizeRingBuffer.empty).count := by
    rw [hcnt]
    simp
    omega
  rw [← hlen, map_getD_range, List.map_id]

/-- Claim C9 (spec-modelled): after any sequence of `pushBytes` calls, the
max-frame-size statistic over the recorded completed-frame sizes equals the
maximum of the last at most 128 completed-frame sizes (and it is zero when no
frame was recorded, the fold over the empty list). -/
theorem C9_maxFrameSize (chunks : List (List Nat)) :
    Unframer.getMaxFrameSizeFromRecentHistory
        ((frameSizes (flattenU (Unframer.pushChunks false chunks).2)).foldl
          recordFrameSize FixedSizeRingBuffer.empty)
      = (((frameSizes (flattenU (Unframer.pushChunks false chunks).2)).drop
            ((frameSizes (flattenU (Unframer.pushChunks false chunks).2)).length - 128)).map
          id).foldr max 0 ∧
    Unframer.getMaxFrameSizeFromRecentHistory FixedSizeRingBuffer.empty = 0 :=
  ⟨ring_max _, by decide⟩

theorem pushBytes_bound :
    ∀ (n : Nat) (sync : Bool) (cur buf : List Nat), buf.length ≤ n →
      cur.length ≤ MAX_DATASET_SIZE →
      ((DatasetExtractor.pushBytes sync cur buf).1.2.length ≤ MAX_DATASET_SIZE ∧
       ∀ d ∈ (DatasetExtractor.pushBytes sync cur buf).2.1, d.length ≤ MAX_DATASET_SIZE) := by
  intro n
  induction n with
  | zero =>
    intro sync cur buf hlen hcur
    have hbuf : buf = [] := List.length_eq_zero.1 (Nat.le_zero.1 hlen)
    subst hbuf
    rw [datasetExtractor_pushBytes_eq]
    simp [datasetExtractorPushBody, hcur]
  | succ n ih =>
    intro sync cur buf hlen hcur
    by_cases h0 : buf.length = 0
    · have hbuf : buf = [] := List.length_eq_zero.1 h0
      subst hbuf
      rw [datasetExtractor_pushBytes_eq]
      simp [datasetExtractorPushBody, hcur]
    · rw [datasetExtractor_pushBytes_eq]
      unfold datasetExtractorPushBody
      cases sync with
      | false =>
        simp only [h0, if_false, reduceIte]
        split
        · next k heq =>
          have hk := memchr_lt_length heq
          exact ih true cur (buf.drop (k + 1)) (by simp; omega) hcur
        · exact ⟨hcur, by simp⟩
      | true =>
        simp only [h0, if_false, Bool.true_eq_false, reduceIte]
        split
        · next e heq =>
          have he : e < buf.length := by
            revert heq
            cases h1 : memchr END_MARKER_TIC_1 buf with
            | some e1 => intro h; cases h; exact memchr_lt_length h1
            | none => intro h; exact memchr_lt_length h
          obtain ⟨ih1, ih2⟩ := ih false [] (buf.drop (e + 1)) (by simp; omega) (by simp)
          refine ⟨ih1, ?_⟩
          intro d hd
          simp only [processIncomingDatasetBytes, if_true, List.mem_append,
            List.mem_singleton] at hd
          rcases hd with hd | hd
          · subst hd
            simp
            omega
          · exact ih2 d hd
        · refine ⟨?_, by simp⟩
          simp only [processIncomingDatasetBytes]
          simp
          omega

/-- Claim C10: over every sequence of `pushBytes` and `reset` operations
started from the initial state, the dataset buffer write index
(`nextWriteInCurrentDataset`, the length of the buffered bytes) never exceeds
`MAX_DATASET_SIZE` = 128, and every payload handed to `onDatasetExtracted` is
at most 128 bytes long. -/
theorem C10_bound (ops : List DEOp) :
    (DatasetExtractor.runOps DatasetExtractor.reset ops).1.2.length ≤ MAX_DATASET_SIZE ∧
    ∀ d ∈ (DatasetExtractor.runOps DatasetExtractor.reset ops).2,
      d.length ≤ MAX_DATASET_SIZE := by
  suffices h : ∀ (ops : List DEOp) (st : Bool × List Nat), st.2.length ≤ MAX_DATASET_SIZE →
      ((DatasetExtractor.runOps st ops).1.2.length ≤ MAX_DATASET_SIZE ∧
       ∀ d ∈ (DatasetExtractor.runOps st ops).2, d.length ≤ MAX_DATASET_SIZE) by
    exact h ops DatasetExtractor.reset (by simp [DatasetExtractor.reset, MAX_DATASET_SIZE])
  intro ops
  induction ops with
  | nil => intro st hst; exact ⟨hst, by simp [DatasetExtractor.runOps]⟩
  | cons op rest ih =>
    intro st hst
    cases op with
    | push c =>
      obtain ⟨p1, p2⟩ := pushBytes_bound c.length st.1 st.2 c le_rfl hst
      obtain ⟨q1, q2⟩ := ih (DatasetExtractor.pushBytes st.1 st.2 c).1 p1
      refine ⟨q1, ?_⟩
      intro d hd
      simp only [DatasetExtractor.runOps, List.mem_append] at hd
      rcases hd with hd | hd
      · exact p2 d hd
      · exact q2 d hd
    | reset =>
      exact ih DatasetExtractor.reset (by simp [DatasetExtractor.reset, MAX_DATASET_SIZE])
